import Mathlib

/-!
# Verification of the kraken2-rust taxonomy subsystem

A shallow embedding of `src/kr2r/src/taxonomy.rs` into Lean 4, together with
proofs and refutations of the specification's claims about it.

Conventions:
* Rust `u64`/`u32` values are modelled as `Nat`; the places where a bound
  matters (the binary codec) carry explicit `< 2^64` hypotheses.
* Rust `HashMap` is modelled as an association list where `insert` prepends
  and lookup takes the first match (so later inserts shadow earlier ones,
  exactly the overwrite semantics of `HashMap::insert`).
* Rust `HashSet<u64>` used as a monotone set (`marked_nodes`) is modelled as
  a `Finset ℕ`; `HashSet` values that are only ever iterated after sorting
  (child sets) are modelled as duplicate-free lists.
* Strings are processed as their character lists so that every operation is
  structural recursion (`String.splitOn` and friends do not reduce in the
  kernel); `splitTabPipe` is Rust's `split("\t|\t")`.
* Functions that can panic or diverge (unbounded loops / recursion, `unwrap`,
  `Vec` indexing) are modelled with an explicit fuel parameter returning
  `Option`; `none` models a panic or divergence.
-/

/-- First-match lookup in an association list; `insert` as prepend makes this
model `HashMap` overwrite semantics. -/
def alookup {α : Type} [DecidableEq α] {β : Type} : List (α × β) → α → Option β
  | [], _ => none
  | (k, v) :: t, a => if a = k then some v else alookup t a

theorem alookup_mem {α : Type} [DecidableEq α] {β : Type} {l : List (α × β)} {a : α} {b : β}
    (h : alookup l a = some b) : (a, b) ∈ l := by
  induction l with
  | nil => simp [alookup] at h
  | cons p t ih =>
    obtain ⟨k, v⟩ := p
    by_cases hk : a = k
    · simp [alookup, hk] at h
      subst hk; subst h; exact List.mem_cons_self _ _
    · simp [alookup, hk] at h
      exact List.mem_cons_of_mem _ (ih h)

/-- Rust's `line.split("\t|\t")` on the character list of the line:
non-overlapping occurrences of the three-character separator, left to right.
`acc` holds the (reversed) characters of the current field. -/
def splitTabPipe : List Char → List Char → List (List Char)
  | '\t' :: '|' :: '\t' :: rest, acc => acc.reverse :: splitTabPipe rest []
  | c :: rest, acc => splitTabPipe rest (c :: acc)
  | [], acc => [acc.reverse]

/-- The fields of a taxonomy-dump line. -/
def lineFields (line : String) : List (List Char) :=
  splitTabPipe line.data []

/-- Parse an unsigned 64-bit integer the way Rust's `str::parse::<u64>` does:
an optional leading `+`, then one or more ASCII digits, with an overflow check. -/
def parseU64 (cs0 : List Char) : Option Nat :=
  let cs := match cs0 with
    | '+' :: rest => rest
    | other => other
  if cs = [] then none
  else if cs.all (fun c => c.isDigit) then
    let v := cs.foldl (fun acc c => acc * 10 + (c.toNat - 48)) 0
    if v < 2 ^ 64 then some v else none
  else none

/-- Strip the trailing characters Rust's
`trim_end_matches(|c| c == '\t' || c == '|' || c == '\n')` removes. -/
def trimTrail (cs : List Char) : List Char :=
  (cs.reverse.dropWhile (fun c => c = '\t' ∨ c = '|' ∨ c = '\n')).reverse

/-- A nodes-file line is skipped (silently) when it is empty, starts with `#`,
or splits into fewer than three `\t|\t` fields. -/
def nodesLineSkipped (line : String) : Prop :=
  line.data = [] ∨ line.data.head? = some '#' ∨ (lineFields line).length < 3

instance (line : String) : Decidable (nodesLineSkipped line) := by
  unfold nodesLineSkipped; infer_instance

/-- The accumulating state of `parse_nodes_file`. -/
structure NodesAcc where
  parent_map : List (Nat × Nat)
  child_map : List (Nat × List Nat)
  rank_map : List (Nat × String)
  known_ranks : List String
  deriving Repr, DecidableEq

/-- `HashMap::insert` (overwrite) on an association list modelled by prepend. -/
def aInsert {β : Type} (m : List (Nat × β)) (k : Nat) (v : β) : List (Nat × β) :=
  (k, v) :: m

/-- `child_map.entry(parent).or_insert_with(HashSet::new).insert(node)`. -/
def childInsert (m : List (Nat × List Nat)) (p c : Nat) : List (Nat × List Nat) :=
  match alookup m p with
  | none => (p, [c]) :: m
  | some l => (p, if c ∈ l then l else l ++ [c]) :: m

/-- `HashSet<String>::insert`. -/
def rankInsert (ks : List String) (r : String) : List String :=
  if r ∈ ks then ks else ks ++ [r]

/-- Process one line of the nodes file.  `none` models the `Err` return on an
integer-parse failure of the external-ID field, or of the parent field for a
node other than 1. -/
def parseNodesLine (acc : NodesAcc) (line : String) : Option NodesAcc :=
  if line.data = [] then some acc
  else if line.data.head? = some '#' then some acc
  else
    let fields := lineFields line
    if fields.length < 3 then some acc
    else do
      let node_id ← parseU64 (fields.getD 0 [])
      let parent_id ← if node_id = 1 then some 0 else parseU64 (fields.getD 1 [])
      let rank : String := ⟨fields.getD 2 []⟩
      some { parent_map := aInsert acc.parent_map node_id parent_id
             child_map := childInsert acc.child_map parent_id node_id
             rank_map := aInsert acc.rank_map node_id rank
             known_ranks := rankInsert acc.known_ranks rank }

/-- `parse_nodes_file`, over the list of lines of the file. -/
def parseNodesFile (lines : List String) : Option NodesAcc :=
  lines.foldlM parseNodesLine
    { parent_map := [], child_map := [], rank_map := [], known_ranks := [] }

/-- A names-file line contributes an entry when it survives the skips, has at
least 4 fields after trailing-separator trimming, and its 4th field is
`"scientific name"`. -/
def parseNamesLine (m : List (Nat × String)) (line : String) : List (Nat × String) :=
  if line.data = [] then m
  else if line.data.head? = some '#' then m
  else
    let fields := splitTabPipe (trimTrail line.data) []
    if fields.length < 4 then m
    else if fields.getD 3 [] = "scientific name".data then
      aInsert m ((parseU64 (fields.getD 0 [])).getD 0) ⟨fields.getD 1 []⟩
    else m

/-- `parse_names_file`, over the list of lines of the file.  It is total:
no line can make it fail. -/
def parseNamesFile (lines : List String) : List (Nat × String) :=
  lines.foldl parseNamesLine []

theorem parseNodesFile_append (pre : List String) (l : String) :
    parseNodesFile (pre ++ [l]) =
      (parseNodesFile pre).bind (fun acc => parseNodesLine acc l) := by
  unfold parseNodesFile
  rw [List.foldlM_append]
  cases parseNodesFile pre <;> simp [parseNodesFile]

theorem parseNamesFile_append (pre : List String) (l : String) :
    parseNamesFile (pre ++ [l]) = parseNamesLine (parseNamesFile pre) l := by
  unfold parseNamesFile
  rw [List.foldl_append]
  rfl

/-- Once a line has errored, the whole nodes-file parse is an error. -/
theorem parseNodesFile_none_of_bad_start {pre : List String} (post : List String)
    (h : parseNodesFile pre = none) : parseNodesFile (pre ++ post) = none := by
  unfold parseNodesFile at *
  rw [List.foldlM_append, h]
  rfl

/-- C9 (amended), key step: a retained nodes-file line whose external-ID field
fails to parse, or whose parent field fails to parse while the external ID is
not 1, makes the line processor return an error. -/
theorem parseNodesLine_err (acc : NodesAcc) (line : String)
    (hskip : ¬ nodesLineSkipped line)
    (hbad : parseU64 ((lineFields line).getD 0 []) = none ∨
      (∃ v, parseU64 ((lineFields line).getD 0 []) = some v ∧ v ≠ 1 ∧
        parseU64 ((lineFields line).getD 1 []) = none)) :
    parseNodesLine acc line = none := by
  unfold nodesLineSkipped at hskip
  push_neg at hskip
  obtain ⟨h1, h2, h3⟩ := hskip
  unfold parseNodesLine
  rw [if_neg h1, if_neg h2, if_neg (by omega)]
  rcases hbad with hbad | ⟨v, hv, hv1, hbad⟩
  · rw [hbad]; rfl
  · rw [hv]
    simp only [Option.bind_eq_bind, Option.some_bind]
    rw [if_neg hv1, hbad]
    rfl

/-- C9, counterexample: the line `1 ␉|␉ abc ␉|␉ no rank` is retained and its
parent field `abc` fails to parse as an unsigned integer, yet
`parse_nodes_file` succeeds, because a node whose external ID is exactly 1
has its parent forced to 0 without ever parsing field 1. -/
theorem c9_counterexample :
    ¬ nodesLineSkipped "1\t|\tabc\t|\tno rank" ∧
    parseU64 ((lineFields "1\t|\tabc\t|\tno rank").getD 1 []) = none ∧
    (parseNodesFile ["1\t|\tabc\t|\tno rank"]).isSome = true :=
  ⟨by decide, by decide, by decide⟩

/-- C9 (amended): if some non-skipped line of the nodes file has an
external-ID field that fails to parse, or a parent field that fails to parse
while the external-ID field parses to a value other than 1, then
`parse_nodes_file` returns an error (the parent field of the node whose
external ID is exactly 1 is never parsed). -/
theorem c9_amended (lines : List String)
    (h : ∃ line ∈ lines, ¬ nodesLineSkipped line ∧
      (parseU64 ((lineFields line).getD 0 []) = none ∨
        (∃ v, parseU64 ((lineFields line).getD 0 []) = some v ∧ v ≠ 1 ∧
          parseU64 ((lineFields line).getD 1 []) = none))) :
    parseNodesFile lines = none := by
  obtain ⟨line, hmem, hskip, hbad⟩ := h
  obtain ⟨s, t, rfl⟩ := List.append_of_mem hmem
  have hpre : parseNodesFile (s ++ [line]) = none := by
    rw [parseNodesFile_append]
    cases hs : parseNodesFile s with
    | none => rfl
    | some acc => simpa using parseNodesLine_err acc line hskip hbad
  calc parseNodesFile (s ++ line :: t) = parseNodesFile ((s ++ [line]) ++ t) := by
        simp
    _ = none := parseNodesFile_none_of_bad_start t hpre

/-- Witness for `c9_amended` at a concrete bad file. -/
theorem c9_amended_witness :
    (¬ nodesLineSkipped "5\t|\tx\t|\tspecies") ∧
    parseNodesFile ["5\t|\tx\t|\tspecies"] = none := by
  constructor
  · decide
  · exact c9_amended _ ⟨"5\t|\tx\t|\tspecies", List.mem_singleton.mpr rfl, by decide,
      Or.inr ⟨5, by decide, by decide, by decide⟩⟩

/-- C10: a retained names-file line (at least 4 fields, 4th field
`"scientific name"`) whose external-ID field fails to parse is neither skipped
nor an error: `unwrap_or(0)` makes its ID default to 0, so its name is
recorded under node ID 0, overwriting any previous entry for key 0. -/
theorem c10_bad_id_defaults_to_zero (pre : List String) (line : String)
    (h0 : line.data ≠ []) (h1 : line.data.head? ≠ some '#')
    (h2 : 4 ≤ (splitTabPipe (trimTrail line.data) []).length)
    (h3 : (splitTabPipe (trimTrail line.data) []).getD 3 [] = "scientific name".data)
    (h4 : parseU64 ((splitTabPipe (trimTrail line.data) []).getD 0 []) = none) :
    alookup (parseNamesFile (pre ++ [line])) 0 =
      some ⟨(splitTabPipe (trimTrail line.data) []).getD 1 []⟩ := by
  rw [parseNamesFile_append]
  unfold parseNamesLine
  rw [if_neg h0, if_neg h1, if_neg (by omega), if_pos h3]
  unfold aInsert
  rw [h4]
  simp [alookup]

/-- Witness for `c10_bad_id_defaults_to_zero`: the malformed ID `xx` lands its
name under key 0, overwriting the name a previous malformed line put there. -/
theorem c10_witness :
    alookup (parseNamesFile
        ["aa\t|\tOldName\t|\t\t|\tscientific name\t|",
         "xx\t|\tNewName\t|\t\t|\tscientific name\t|"]) 0 = some "NewName" := by
  have h := c10_bad_id_defaults_to_zero
    ["aa\t|\tOldName\t|\t\t|\tscientific name\t|"]
    "xx\t|\tNewName\t|\t\t|\tscientific name\t|"
    (by decide) (by decide) (by decide) (by decide) (by decide)
  exact h.trans (by decide)

/-- The pre-compaction working structure (`NCBITaxonomy`). -/
structure NCBITaxonomy where
  parent_map : List (Nat × Nat)
  name_map : List (Nat × String)
  rank_map : List (Nat × String)
  child_map : List (Nat × List Nat)
  marked_nodes : Finset Nat
  known_ranks : List String

/-- The `mark_node` climbing loop: insert the current external ID and follow
`parent_map` until reaching an already-marked node or a node with no parent
entry.  The loop is modelled with fuel; every theorem below holds for every
positive fuel value, hence for the unbounded Rust loop. -/
def markNodeAux (pm : List (Nat × Nat)) : Nat → Nat → Finset Nat → Finset Nat
  | 0, _, s => s
  | f + 1, c, s =>
    if c ∈ s then s
    else
      match alookup pm c with
      | some p => markNodeAux pm f p (insert c s)
      | none => insert c s

/-- The list of external IDs `mark_node` inserts: the chain from the start up
to (excluding) the first already-marked node, stopping there or at a node
with no `parent_map` entry. -/
def markChain (pm : List (Nat × Nat)) : Nat → Nat → Finset Nat → List Nat
  | 0, _, _ => []
  | f + 1, c, s =>
    if c ∈ s then []
    else
      match alookup pm c with
      | some p => c :: markChain pm f p (insert c s)
      | none => [c]

theorem markNodeAux_eq_union (pm : List (Nat × Nat)) (f : Nat) :
    ∀ c s, markNodeAux pm f c s = s ∪ (markChain pm f c s).toFinset := by
  induction f with
  | zero => intro c s; simp [markNodeAux, markChain]
  | succ f ih =>
    intro c s
    by_cases hc : c ∈ s
    · simp [markNodeAux, markChain, hc]
    · cases hp : alookup pm c with
      | some p =>
        simp only [markNodeAux, markChain, if_neg hc, hp]
        rw [ih]
        ext x
        simp only [Finset.mem_insert, Finset.mem_union, List.mem_toFinset, List.mem_cons]
        tauto
      | none =>
        simp only [markNodeAux, markChain, if_neg hc, hp]
        ext x
        simp only [Finset.mem_insert, Finset.mem_union, List.mem_toFinset, List.mem_singleton]
        tauto

theorem markNodeAux_of_mem {pm : List (Nat × Nat)} {f c : Nat} {s : Finset Nat}
    (h : c ∈ s) : markNodeAux pm (f + 1) c s = s := by
  simp [markNodeAux, h]

theorem mem_markNodeAux_self (pm : List (Nat × Nat)) (f : Nat) (c : Nat) (s : Finset Nat) :
    c ∈ markNodeAux pm (f + 1) c s := by
  by_cases hc : c ∈ s
  · rw [markNodeAux_of_mem hc]; exact hc
  · rw [markNodeAux_eq_union]
    cases hp : alookup pm c with
    | some p => simp [markChain, hp, hc]
    | none => simp [markChain, hp, hc]

/-- C8: `mark_node` is idempotent — running the marking loop a second time
from the same start leaves `marked_nodes` unchanged — and what one call
inserts is exactly the chain from the start up to (excluding) the first
already-marked node, stopping there or at a node with no `parent_map` entry
(`markChain` is that chain by construction). -/
theorem c8_mark_node_idempotent (pm : List (Nat × Nat)) (t : Nat) (s : Finset Nat) (f : Nat) :
    markNodeAux pm (f + 1) t (markNodeAux pm (f + 1) t s) = markNodeAux pm (f + 1) t s ∧
    markNodeAux pm (f + 1) t s = s ∪ (markChain pm (f + 1) t s).toFinset := by
  refine ⟨?_, markNodeAux_eq_union pm (f + 1) t s⟩
  exact markNodeAux_of_mem (mem_markNodeAux_self pm f t s)

/-- The fixed-size compacted-tree node record (`TaxonomyNode`), 7 `u64` fields. -/
structure TaxonomyNode where
  parent_id : Nat
  first_child : Nat
  child_count : Nat
  name_offset : Nat
  rank_offset : Nat
  external_id : Nat
  godparent_id : Nat
  deriving Repr, DecidableEq

instance : Inhabited TaxonomyNode :=
  ⟨{ parent_id := 0, first_child := 0, child_count := 0, name_offset := 0,
     rank_offset := 0, external_id := 0, godparent_id := 0 }⟩

/-- The compacted, queryable tree (`Taxonomy`).  String blobs are byte lists;
`path_cache` and the external-to-internal map are association lists. -/
structure Taxonomy where
  path_cache : List (Nat × List Nat)
  nodes : List TaxonomyNode
  name_data : List Nat
  rank_data : List Nat
  external_to_internal_id_map : List (Nat × Nat)
  deriving DecidableEq

/-- `self.nodes.get(v).map_or(0, |node| node.parent_id)`: parent of `v`, or 0
when `v` is outside the node array. -/
def parentOf (nodes : List TaxonomyNode) (v : Nat) : Nat :=
  (nodes.getD v default).parent_id

/-- `is_a_ancestor_of_b`: false when either ID is 0, otherwise whether `a`
occurs in the cached root path of `b` (false when `b` has no cache entry). -/
def Taxonomy.is_a_ancestor_of_b (tx : Taxonomy) (a b : Nat) : Bool :=
  if a = 0 || b = 0 then false
  else
    match alookup tx.path_cache b with
    | some path => path.contains a
    | none => false

/-- The lock-step walk of `lca`: length of the common prefix of two paths. -/
def commonPrefixLen : List Nat → List Nat → Nat
  | a :: as, b :: bs => if a = b then commonPrefixLen as bs + 1 else 0
  | _, _ => 0

/-- The cache-based `lca`: zero/equal short-circuits, then the last position
where the two cached root paths (default `[0]` when absent) agree. -/
def Taxonomy.lca (tx : Taxonomy) (a b : Nat) : Nat :=
  if a = 0 ∨ b = 0 ∨ a = b then (if a ≠ 0 then a else b)
  else
    let pa := (alookup tx.path_cache a).getD [0]
    let pb := (alookup tx.path_cache b).getD [0]
    let i := commonPrefixLen pa pb
    if i = 0 then 0 else pa.getD (i - 1) 0

/-- The pointer-climbing loop of `lowest_common_ancestor`: while the two IDs
differ, replace the strictly larger one by its parent (0 when out of the node
array).  Fueled; `none` models divergence of the Rust `while` loop. -/
def lcaClimb (nodes : List TaxonomyNode) : Nat → Nat → Nat → Option Nat
  | 0, _, _ => none
  | f + 1, a, b =>
    if a = b then some a
    else if b < a then lcaClimb nodes f (parentOf nodes a) b
    else lcaClimb nodes f a (parentOf nodes b)

/-- `lowest_common_ancestor`: zero/equal short-circuits, then the climb. -/
def Taxonomy.lowest_common_ancestor (tx : Taxonomy) (f : Nat) (a b : Nat) : Option Nat :=
  if a = 0 ∨ b = 0 ∨ a = b then some (if a ≠ 0 then a else b)
  else lcaClimb tx.nodes f a b

/-- The monotonicity invariant: every non-root, non-sentinel node's parent ID
is strictly smaller than its own internal ID. -/
def monoInv (nodes : List TaxonomyNode) : Prop :=
  ∀ w, 2 ≤ w → w < nodes.length → parentOf nodes w < w

/-- The root invariant: internal node 1's parent is the sentinel 0. -/
def rootInv (nodes : List TaxonomyNode) : Prop :=
  1 < nodes.length → parentOf nodes 1 = 0

/-- Adjacent-step condition of a cached path: each entry's `parent_id` is the
preceding entry. -/
def stepOk (nodes : List TaxonomyNode) : List Nat → Prop
  | [] => True
  | [_] => True
  | a :: b :: t => parentOf nodes b = a ∧ stepOk nodes (b :: t)

def stepOkDec (nodes : List TaxonomyNode) : (l : List Nat) → Decidable (stepOk nodes l)
  | [] => isTrue trivial
  | [_] => isTrue trivial
  | a :: b :: t =>
    haveI := stepOkDec nodes (b :: t)
    inferInstanceAs (Decidable (parentOf nodes b = a ∧ stepOk nodes (b :: t)))

instance (nodes : List TaxonomyNode) (l : List Nat) : Decidable (stepOk nodes l) :=
  stepOkDec nodes l

/-- What claim C5 asserts of a cache entry: the path begins with the root 1,
ends with its key, each entry's parent is the preceding entry, and every
entry is a real in-range node. -/
def goodPath (nodes : List TaxonomyNode) (v : Nat) (l : List Nat) : Prop :=
  l.head? = some 1 ∧ l.getLast? = some v ∧ stepOk nodes l ∧
    ∀ x ∈ l, 1 ≤ x ∧ x < nodes.length

instance (nodes : List TaxonomyNode) (v : Nat) (l : List Nat) : Decidable (goodPath nodes v l) := by
  unfold goodPath; infer_instance

/-- Root-to-node paths as an inductive derivation, the working form of
`goodPath`. -/
inductive RootPath (nodes : List TaxonomyNode) : Nat → List Nat → Prop
  | root : 1 < nodes.length → RootPath nodes 1 [1]
  | step {u v : Nat} {l : List Nat} : RootPath nodes u l → 2 ≤ v → v < nodes.length →
      parentOf nodes v = u → RootPath nodes v (l ++ [v])

namespace RootPath

theorem ne_nil {nodes : List TaxonomyNode} {v : Nat} {l : List Nat}
    (h : RootPath nodes v l) : l ≠ [] := by
  cases h with
  | root => simp
  | step _ _ _ _ => simp

theorem one_le {nodes : List TaxonomyNode} {v : Nat} {l : List Nat}
    (h : RootPath nodes v l) : 1 ≤ v := by
  cases h with
  | root => omega
  | step _ h2 _ _ => omega

theorem lt_len {nodes : List TaxonomyNode} {v : Nat} {l : List Nat}
    (h : RootPath nodes v l) : v < nodes.length := by
  cases h with
  | root h1 => omega
  | step _ _ h3 _ => exact h3

theorem head_eq {nodes : List TaxonomyNode} {v : Nat} {l : List Nat}
    (h : RootPath nodes v l) : l.head? = some 1 := by
  induction h with
  | root => rfl
  | step hu h2 h3 h4 ih =>
    rename_i u v l
    rw [List.head?_append_of_ne_nil _ (ne_nil hu)] at *
    exact ih

theorem last_eq {nodes : List TaxonomyNode} {v : Nat} {l : List Nat}
    (h : RootPath nodes v l) : l.getLast? = some v := by
  cases h with
  | root => rfl
  | step hu _ _ _ => simp

theorem mem_bounds {nodes : List TaxonomyNode} {v : Nat} {l : List Nat}
    (h : RootPath nodes v l) : ∀ x ∈ l, 1 ≤ x ∧ x < nodes.length := by
  induction h with
  | root h1 => intro x hx; simp at hx; omega
  | step hu h2 h3 h4 ih =>
    intro x hx
    rw [List.mem_append] at hx
    rcases hx with hx | hx
    · exact ih x hx
    · simp at hx; omega

theorem mem_le {nodes : List TaxonomyNode} (hm : monoInv nodes) {v : Nat} {l : List Nat}
    (h : RootPath nodes v l) : ∀ x ∈ l, x ≤ v := by
  induction h with
  | root h1 => intro x hx; simp at hx; omega
  | step hu h2 h3 h4 ih =>
    rename_i u v l
    intro x hx
    have hu_lt : u < v := by
      have := hm v h2 h3
      omega
    rw [List.mem_append] at hx
    rcases hx with hx | hx
    · have := ih x hx; omega
    · simp at hx; omega

theorem unique {nodes : List TaxonomyNode} {v : Nat} {l l' : List Nat}
    (h : RootPath nodes v l) (h' : RootPath nodes v l') : l = l' := by
  induction h generalizing l' with
  | root h1 =>
    cases h' with
    | root => rfl
    | step _ h2 _ _ => omega
  | step hu h2 h3 h4 ih =>
    rename_i u v l
    cases h' with
    | root h1 => omega
    | step hu' h2' h3' h4' =>
      rename_i u' l₀
      have huu : u = u' := by rw [← h4, ← h4']
      subst huu
      rw [ih hu']

theorem take_at {nodes : List TaxonomyNode} {v : Nat} {l : List Nat}
    (h : RootPath nodes v l) :
    ∀ j, j < l.length → RootPath nodes (l.getD j 0) (l.take (j + 1)) := by
  induction h with
  | root h1 =>
    intro j hj
    simp at hj
    subst hj
    exact RootPath.root h1
  | step hu h2 h3 h4 ih =>
    rename_i u v l
    intro j hj
    rcases lt_or_ge j l.length with hlt | hge
    · rw [List.getD_append _ _ _ _ hlt, List.take_append_of_le_length (by omega)]
      exact ih j hlt
    · have hj_eq : j = l.length := by
        simp at hj
        omega
      subst hj_eq
      have h1 : (l ++ [v]).getD l.length 0 = v := by
        simp [List.getD_append_right, le_refl]
      rw [h1]
      rw [show l.length + 1 = (l ++ [v]).length by simp, List.take_length]
      exact RootPath.step hu h2 h3 h4

end RootPath

theorem stepOk_concat {nodes : List TaxonomyNode} :
    ∀ {l : List Nat} {u v : Nat}, stepOk nodes l → l.getLast? = some u →
      parentOf nodes v = u → stepOk nodes (l ++ [v])
  | [], u, v, _, hlast, _ => by simp at hlast
  | [a], u, v, _, hlast, hpar => by
    simp at hlast
    subst hlast
    exact ⟨hpar, trivial⟩
  | a :: b :: t, u, v, hstep, hlast, hpar => by
    obtain ⟨h1, h2⟩ := hstep
    refine ⟨h1, ?_⟩
    exact stepOk_concat h2 (by simpa using hlast) hpar

theorem stepOk_concat_split {nodes : List TaxonomyNode} :
    ∀ {l : List Nat} {v : Nat}, stepOk nodes (l ++ [v]) →
      stepOk nodes l ∧ (l = [] ∨ ∃ u, l.getLast? = some u ∧ parentOf nodes v = u)
  | [], v, _ => ⟨trivial, Or.inl rfl⟩
  | [a], v, h => by
    obtain ⟨h1, _⟩ := h
    exact ⟨trivial, Or.inr ⟨a, rfl, h1⟩⟩
  | a :: b :: t, v, h => by
    obtain ⟨h1, h2⟩ := h
    obtain ⟨h3, h4⟩ := stepOk_concat_split (l := b :: t) h2
    refine ⟨⟨h1, h3⟩, ?_⟩
    rcases h4 with h4 | ⟨u, h5, h6⟩
    · simp at h4
    · exact Or.inr ⟨u, by simpa using h5, h6⟩

theorem mem_of_getLast?_eq {α : Type} {l : List α} {u : α} (h : l.getLast? = some u) :
    u ∈ l := by
  have hu : u ∈ l.getLast? := by simp [h]
  obtain ⟨hne, heq⟩ := List.mem_getLast?_eq_getLast hu
  subst heq
  exact List.getLast_mem hne

theorem RootPath.to_goodPath {nodes : List TaxonomyNode} {v : Nat} {l : List Nat}
    (h : RootPath nodes v l) : goodPath nodes v l := by
  refine ⟨h.head_eq, h.last_eq, ?_, h.mem_bounds⟩
  induction h with
  | root h1 => trivial
  | step hu h2 h3 h4 ih =>
    exact stepOk_concat ih hu.last_eq h4

theorem goodPath_to_rootPath {nodes : List TaxonomyNode} (hr : rootInv nodes) :
    ∀ {l : List Nat} {v : Nat}, goodPath nodes v l → RootPath nodes v l := by
  intro l
  induction l using List.reverseRecOn with
  | nil => intro v h; simp [goodPath] at h
  | append_singleton l x ih =>
    intro v h
    obtain ⟨hhead, hlast, hstep, hbounds⟩ := h
    have hxv : x = v := by simpa using hlast
    subst hxv
    obtain ⟨hstepl, hrest⟩ := stepOk_concat_split hstep
    rcases hrest with hnil | ⟨u, hul, hpu⟩
    · subst hnil
      have h1 : x = 1 := by simpa using hhead
      subst h1
      have := hbounds 1 (by simp)
      exact RootPath.root this.2
    · have hlne : l ≠ [] := by
        intro hc; subst hc; simp at hul
      have hxbounds := hbounds x (by simp)
      have hubounds : 1 ≤ u ∧ u < nodes.length := by
        refine hbounds u (List.mem_append_left _ ?_)
        exact mem_of_getLast?_eq hul
      have hx2 : 2 ≤ x := by
        rcases Nat.lt_or_ge x 2 with hlt | hge
        · have hx1 : x = 1 := by omega
        -- if x were the root, its parent would be 0, contradicting 1 ≤ u
          exfalso
          subst hx1
          rw [hr hxbounds.2] at hpu
          omega
        · exact hge
      refine RootPath.step ?_ hx2 hxbounds.2 hpu
      refine ih ⟨?_, hul, hstepl, fun y hy => hbounds y (List.mem_append_left _ hy)⟩
      rwa [List.head?_append_of_ne_nil _ hlne] at hhead

theorem commonPrefixLen_le_left : ∀ (a b : List Nat), commonPrefixLen a b ≤ a.length
  | [], _ => by simp [commonPrefixLen]
  | _ :: _, [] => by simp [commonPrefixLen]
  | x :: xs, y :: ys => by
    unfold commonPrefixLen
    by_cases h : x = y
    · simpa [h] using commonPrefixLen_le_left xs ys
    · simp [h]

theorem commonPrefixLen_le_right : ∀ (a b : List Nat), commonPrefixLen a b ≤ b.length
  | [], _ => by simp [commonPrefixLen]
  | _ :: _, [] => by simp [commonPrefixLen]
  | x :: xs, y :: ys => by
    unfold commonPrefixLen
    by_cases h : x = y
    · simpa [h] using commonPrefixLen_le_right xs ys
    · simp [h]

theorem commonPrefixLen_symm : ∀ (a b : List Nat), commonPrefixLen a b = commonPrefixLen b a
  | [], [] => rfl
  | [], _ :: _ => rfl
  | _ :: _, [] => rfl
  | x :: xs, y :: ys => by
    unfold commonPrefixLen
    by_cases h : x = y
    · simp [h, commonPrefixLen_symm xs ys]
    · simp [h, Ne.symm h]

theorem commonPrefixLen_pos {a b : List Nat} (ha : a.head? = some 1) (hb : b.head? = some 1) :
    1 ≤ commonPrefixLen a b := by
  cases a with
  | nil => simp at ha
  | cons x xs =>
    cases b with
    | nil => simp at hb
    | cons y ys =>
      simp at ha hb
      subst ha; subst hb
      simp [commonPrefixLen]

theorem getD_eq_of_lt_commonPrefixLen :
    ∀ {a b : List Nat} {k : Nat}, k < commonPrefixLen a b → a.getD k 0 = b.getD k 0
  | [], b, k, h => by simp [commonPrefixLen] at h
  | _ :: _, [], k, h => by simp [commonPrefixLen] at h
  | x :: xs, y :: ys, k, h => by
    by_cases hxy : x = y
    · cases k with
      | zero => simpa using hxy
      | succ k =>
        simp only [commonPrefixLen, if_pos hxy] at h
        simpa using getD_eq_of_lt_commonPrefixLen (a := xs) (b := ys) (k := k) (by omega)
    · simp [commonPrefixLen, hxy] at h

theorem commonPrefixLen_concat_of_not_mem :
    ∀ {xs : List Nat} (ys : List Nat) {x : Nat}, x ∉ ys →
      commonPrefixLen (xs ++ [x]) ys = commonPrefixLen xs ys
  | [], [], x, h => rfl
  | [], y :: ys, x, h => by
    have : x ≠ y := by intro hc; exact h (by simp [hc])
    simp [commonPrefixLen, this]
  | a :: as, [], x, h => rfl
  | a :: as, y :: ys, x, h => by
    have hys : x ∉ ys := fun hc => h (List.mem_cons_of_mem _ hc)
    by_cases hay : a = y
    · simp [commonPrefixLen, hay, commonPrefixLen_concat_of_not_mem ys hys]
    · simp [commonPrefixLen, hay]

theorem commonPrefixLen_of_IsPrefix :
    ∀ {xs ys : List Nat}, xs <+: ys → commonPrefixLen xs ys = xs.length
  | [], ys, _ => by cases ys <;> rfl
  | x :: xs, ys, h => by
    obtain ⟨t, ht⟩ := h
    subst ht
    simp only [List.cons_append, commonPrefixLen, if_pos rfl]
    have : commonPrefixLen xs (xs ++ t) = xs.length :=
      commonPrefixLen_of_IsPrefix ⟨t, rfl⟩
    simp [this]

theorem getD_pred_length_of_getLast? {l : List Nat} {v : Nat} (h : l.getLast? = some v) :
    l.getD (l.length - 1) 0 = v := by
  rw [List.getD_eq_getElem?_getD, ← List.getLast?_eq_getElem?, h]
  rfl

/-- The value the cache walk of `lca` returns on two cached paths. -/
def pathMeet (pa pb : List Nat) : Nat :=
  pa.getD (commonPrefixLen pa pb - 1) 0

theorem RootPath.inv_step {nodes : List TaxonomyNode} {v : Nat} {pa : List Nat}
    (h : RootPath nodes v pa) (h2 : 2 ≤ v) :
    ∃ u l, pa = l ++ [v] ∧ RootPath nodes u l ∧ parentOf nodes v = u ∧ v < nodes.length := by
  cases h with
  | root h1 => omega
  | step hu h2' h3 h4 => exact ⟨_, _, rfl, hu, h4, h3⟩

/-- The climbing loop agrees with the last-common-prefix value of the two
root paths, whenever it returns at all. -/
theorem lcaClimb_eq_pathMeet {nodes : List TaxonomyNode} (hm : monoInv nodes) :
    ∀ (N : Nat) {a b : Nat} {pa pb : List Nat} {f r : Nat}, a + b ≤ N →
      RootPath nodes a pa → RootPath nodes b pb → lcaClimb nodes f a b = some r →
      r = pathMeet pa pb := by
  intro N
  induction N using Nat.strong_induction_on with
  | _ N ih =>
    intro a b pa pb f r hN hpa hpb hclimb
    cases f with
    | zero => simp [lcaClimb] at hclimb
    | succ f =>
      by_cases hab : a = b
      · subst hab
        have hpp : pa = pb := RootPath.unique hpa hpb
        subst hpp
        have hra : a = r := by
          simpa [lcaClimb] using hclimb
        subst hra
        unfold pathMeet
        rw [commonPrefixLen_of_IsPrefix List.prefix_rfl]
        exact (getD_pred_length_of_getLast? hpa.last_eq).symm
      · by_cases hba : b < a
        · -- climb replaces a by its parent
          have ha2 : 2 ≤ a := by
            have := hpb.one_le
            omega
          obtain ⟨u, l, rfl, hu, h4, h3⟩ := hpa.inv_step ha2
          simp only [lcaClimb, if_neg hab, if_pos hba] at hclimb
          rw [show parentOf nodes a = u from h4] at hclimb
          have hu_lt : u < a := h4 ▸ hm a ha2 h3
          have hrec : r = pathMeet l pb := by
            refine ih (u + b) (by omega) (le_refl _) hu hpb hclimb
          have hnotmem : a ∉ pb := by
            intro hc
            have := hpb.mem_le hm a hc
            omega
          have hcpl : commonPrefixLen (l ++ [a]) pb = commonPrefixLen l pb :=
            commonPrefixLen_concat_of_not_mem pb hnotmem
          have hpos : 1 ≤ commonPrefixLen l pb :=
            commonPrefixLen_pos hu.head_eq hpb.head_eq
          have hle : commonPrefixLen l pb ≤ l.length := commonPrefixLen_le_left l pb
          unfold pathMeet
          rw [hcpl, hrec]
          unfold pathMeet
          rw [List.getD_append _ _ _ _ (by omega)]
        · -- a < b: climb replaces b by its parent
          have hab_lt : a < b := by omega
          have hb2 : 2 ≤ b := by
            have := hpa.one_le
            omega
          obtain ⟨u, l, rfl, hu, h4, h3⟩ := hpb.inv_step hb2
          simp only [lcaClimb, if_neg hab, if_neg hba] at hclimb
          rw [show parentOf nodes b = u from h4] at hclimb
          have hu_lt : u < b := h4 ▸ hm b hb2 h3
          have hrec : r = pathMeet pa l := by
            refine ih (a + u) (by omega) (le_refl _) hpa hu hclimb
          have hnotmem : b ∉ pa := by
            intro hc
            have := hpa.mem_le hm b hc
            omega
          have hcpl : commonPrefixLen pa (l ++ [b]) = commonPrefixLen pa l := by
            rw [commonPrefixLen_symm, commonPrefixLen_concat_of_not_mem pa hnotmem,
              commonPrefixLen_symm]
          rw [hrec]
          unfold pathMeet
          rw [hcpl]

/-- A node array satisfying the claim's hypothesis — `parent_id < id` for
every non-root node — but whose root (internal ID 1) has `parent_id = 3`. -/
def badNodes : List TaxonomyNode :=
  [default,
   { parent_id := 3, first_child := 0, child_count := 0, name_offset := 0,
     rank_offset := 0, external_id := 1, godparent_id := 0 },
   { parent_id := 1, first_child := 0, child_count := 0, name_offset := 0,
     rank_offset := 0, external_id := 2, godparent_id := 0 },
   { parent_id := 2, first_child := 0, child_count := 0, name_offset := 0,
     rank_offset := 0, external_id := 3, godparent_id := 0 }]

def badTaxo : Taxonomy :=
  { path_cache := [], nodes := badNodes, name_data := [], rank_data := [],
    external_to_internal_id_map := [] }

theorem badTaxo_cycle : ∀ f, lcaClimb badNodes f 0 3 = none ∧
    lcaClimb badNodes f 0 2 = none ∧ lcaClimb badNodes f 0 1 = none := by
  intro f
  induction f with
  | zero => exact ⟨rfl, rfl, rfl⟩
  | succ f ih =>
    obtain ⟨h3, h2, h1⟩ := ih
    refine ⟨?_, ?_, ?_⟩
    · show lcaClimb badNodes f 0 (parentOf badNodes 3) = none
      exact h2
    · show lcaClimb badNodes f 0 (parentOf badNodes 2) = none
      exact h1
    · show lcaClimb badNodes f 0 (parentOf badNodes 1) = none
      exact h3

/-- C7, counterexample: `badNodes` satisfies the claim's hypothesis (every
non-root node's `parent_id` is smaller than its internal ID), yet
`lowest_common_ancestor(4, 3)` never terminates: ID 4 is outside the array
and becomes 0, and the other side then cycles 3 → 2 → 1 → 3 forever because
the root's parent is 3, not 0. -/
theorem c7_counterexample :
    monoInv badTaxo.nodes ∧
    ∀ f, badTaxo.lowest_common_ancestor f 4 3 = none := by
  constructor
  · intro w h2 hlen
    simp only [badTaxo, badNodes, List.length] at hlen
    interval_cases w <;> decide
  · intro f
    have hbody : lcaClimb badNodes f 4 3 = none := by
      cases f with
      | zero => rfl
      | succ f =>
        show lcaClimb badNodes f (parentOf badNodes 4) 3 = none
        exact (badTaxo_cycle f).1
    simpa [Taxonomy.lowest_common_ancestor, badTaxo] using hbody

/-- Full-array monotonicity (plus the root invariant) makes the larger of the
two current IDs strictly decrease on every climb step, so fuel `a + b + 1`
always suffices. -/
theorem lcaClimb_total {nodes : List TaxonomyNode} (hm : monoInv nodes) (hr : rootInv nodes) :
    ∀ (N : Nat) {a b f : Nat}, a + b ≤ N → N < f → (lcaClimb nodes f a b).isSome = true := by
  intro N
  induction N using Nat.strong_induction_on with
  | _ N ih =>
    intro a b f hab hf
    cases f with
    | zero => omega
    | succ f =>
      by_cases heq : a = b
      · simp [lcaClimb, heq]
      · have hparent_lt : ∀ c, 1 ≤ c → parentOf nodes c < c := by
          intro c hc
          rcases Nat.lt_or_ge c nodes.length with hlt | hge
          · rcases Nat.lt_or_ge c 2 with hc2 | hc2
            · have hc1 : c = 1 := by omega
              subst hc1
              rw [hr hlt]
              omega
            · exact hm c hc2 hlt
          · unfold parentOf
            rw [List.getD_eq_default _ _ hge]
            have : (default : TaxonomyNode).parent_id = 0 := rfl
            omega
        by_cases hba : b < a
        · have ha1 : 1 ≤ a := by omega
          have hlt := hparent_lt a ha1
          simp only [lcaClimb, if_neg heq, if_pos hba]
          have hm1 : parentOf nodes a + b < N := by omega
          have hm2 : parentOf nodes a + b < f := by omega
          exact ih _ hm1 (le_refl _) hm2
        · have hb1 : 1 ≤ b := by omega
          have hlt := hparent_lt b hb1
          simp only [lcaClimb, if_neg heq, if_neg hba]
          have hm1 : a + parentOf nodes b < N := by omega
          have hm2 : a + parentOf nodes b < f := by omega
          exact ih _ hm1 (le_refl _) hm2

/-- C7 (amended): under the full BFS-numbering invariants — `parent_id < id`
for non-root nodes AND `parent_id = 0` for the root — the climbing loop of
`lowest_common_ancestor` terminates for every pair of inputs, within
`a + b + 1` iterations, because each iteration strictly decreases the larger
of the two current IDs (an ID outside the node array is replaced by 0). -/
theorem c7_amended (tx : Taxonomy) (hm : monoInv tx.nodes) (hr : rootInv tx.nodes)
    (a b : Nat) : ∃ r, tx.lowest_common_ancestor (a + b + 1) a b = some r := by
  unfold Taxonomy.lowest_common_ancestor
  by_cases h : a = 0 ∨ b = 0 ∨ a = b
  · exact ⟨_, by rw [if_pos h]⟩
  · rw [if_neg h]
    have := lcaClimb_total hm hr (a + b) (a := a) (b := b) (f := a + b + 1)
      (le_refl _) (by omega)
    obtain ⟨r, hr'⟩ := Option.isSome_iff_exists.mp this
    exact ⟨r, hr'⟩

/-- On two cached nonzero distinct IDs, `lca` returns the value at the last
index of the common prefix of the two cached paths. -/
theorem lca_eq_pathMeet {tx : Taxonomy} {a b : Nat} {pa pb : List Nat}
    (ha : alookup tx.path_cache a = some pa) (hb : alookup tx.path_cache b = some pb)
    (ha0 : a ≠ 0) (hb0 : b ≠ 0) (hab : a ≠ b)
    (hha : pa.head? = some 1) (hhb : pb.head? = some 1) :
    tx.lca a b = pathMeet pa pb := by
  unfold Taxonomy.lca
  rw [if_neg (by tauto)]
  simp only [ha, hb, Option.getD_some]
  have hpos := commonPrefixLen_pos hha hhb
  rw [if_neg (by omega)]
  rfl

/-- C3: on a Taxonomy satisfying the BFS-numbering invariants whose path
cache holds root paths, the cache-walking `lca` agrees with the
pointer-climbing `lowest_common_ancestor` for every pair of cached IDs,
whatever fuel lets the climb return. -/
theorem c3_lca_agreement (tx : Taxonomy) (hm : monoInv tx.nodes) (hr : rootInv tx.nodes)
    (hcache : ∀ v l, alookup tx.path_cache v = some l → goodPath tx.nodes v l)
    {a b : Nat} {pa pb : List Nat}
    (ha : alookup tx.path_cache a = some pa) (hb : alookup tx.path_cache b = some pb)
    {f r : Nat} (hlow : tx.lowest_common_ancestor f a b = some r) :
    tx.lca a b = r := by
  have hrpa := goodPath_to_rootPath hr (hcache a pa ha)
  have hrpb := goodPath_to_rootPath hr (hcache b pb hb)
  have ha1 := hrpa.one_le
  have hb1 := hrpb.one_le
  by_cases hab : a = b
  · subst hab
    unfold Taxonomy.lowest_common_ancestor at hlow
    rw [if_pos (by tauto)] at hlow
    unfold Taxonomy.lca
    rw [if_pos (by tauto)]
    exact Option.some.inj hlow
  · have hcond : ¬ (a = 0 ∨ b = 0 ∨ a = b) := by
      push_neg
      exact ⟨by omega, by omega, hab⟩
    unfold Taxonomy.lowest_common_ancestor at hlow
    rw [if_neg hcond] at hlow
    have hmeet := lcaClimb_eq_pathMeet hm (a + b) (le_refl _) hrpa hrpb hlow
    rw [lca_eq_pathMeet ha hb (by omega) (by omega) hab hrpa.head_eq hrpb.head_eq, hmeet]

/-- C6: on a Taxonomy satisfying the BFS-numbering invariants whose path
cache holds root paths, for cached IDs `a, b`: `is_a_ancestor_of_b a b` holds
iff `a` is an entry of `b`'s cached path, iff `lca a b = a`. -/
theorem c6_ancestor_consistency (tx : Taxonomy) (hm : monoInv tx.nodes) (hr : rootInv tx.nodes)
    (hcache : ∀ v l, alookup tx.path_cache v = some l → goodPath tx.nodes v l)
    {a b : Nat} {pa pb : List Nat}
    (ha : alookup tx.path_cache a = some pa) (hb : alookup tx.path_cache b = some pb) :
    (tx.is_a_ancestor_of_b a b = true ↔ a ∈ pb) ∧ (a ∈ pb ↔ tx.lca a b = a) := by
  have hrpa := goodPath_to_rootPath hr (hcache a pa ha)
  have hrpb := goodPath_to_rootPath hr (hcache b pb hb)
  have ha1 := hrpa.one_le
  have hb1 := hrpb.one_le
  constructor
  · unfold Taxonomy.is_a_ancestor_of_b
    rw [if_neg (by simp; omega)]
    simp only [hb]
    simp [List.contains]
  · constructor
    · intro hmem
      by_cases hab : a = b
      · subst hab
        unfold Taxonomy.lca
        rw [if_pos (by tauto)]
        simp
      · obtain ⟨j, hj, hget⟩ := List.mem_iff_getElem.mp hmem
        have hgetD : pb.getD j 0 = a := by
          rw [List.getD_eq_getElem _ _ hj]
          exact hget
        have htake := hrpb.take_at j hj
        rw [hgetD] at htake
        have hpa_eq : pa = pb.take (j + 1) := RootPath.unique hrpa htake
        have hpref : pa <+: pb := by
          rw [hpa_eq]
          exact List.take_prefix _ _
        have hcpl : commonPrefixLen pa pb = pa.length := commonPrefixLen_of_IsPrefix hpref
        rw [lca_eq_pathMeet ha hb (by omega) (by omega) hab hrpa.head_eq hrpb.head_eq]
        unfold pathMeet
        rw [hcpl]
        exact getD_pred_length_of_getLast? hrpa.last_eq
    · intro hlca
      by_cases hab : a = b
      · subst hab
        exact mem_of_getLast?_eq hrpb.last_eq
      · rw [lca_eq_pathMeet ha hb (by omega) (by omega) hab hrpa.head_eq hrpb.head_eq] at hlca
        have hpos := commonPrefixLen_pos hrpa.head_eq hrpb.head_eq
        have hler := commonPrefixLen_le_right pa pb
        have heqD : pa.getD (commonPrefixLen pa pb - 1) 0 =
            pb.getD (commonPrefixLen pa pb - 1) 0 :=
          getD_eq_of_lt_commonPrefixLen (by omega)
        unfold pathMeet at hlca
        rw [heqD] at hlca
        rw [← hlca]
        rw [List.getD_eq_getElem _ _ (by omega)]
        exact List.getElem_mem _

def fcOf (nodes : List TaxonomyNode) (v : Nat) : Nat :=
  (nodes.getD v default).first_child

def ccOf (nodes : List TaxonomyNode) (v : Nat) : Nat :=
  (nodes.getD v default).child_count

/-- `build_path_for_node`: append the node to the running path, store a copy
in the cache, then recurse over the contiguous children range
`first_child .. first_child + child_count`.  Fuel models the unbounded Rust
recursion depth; indexing `self.nodes[node_id]` panics out of range (`none`). -/
def buildPathForNode (nodes : List TaxonomyNode) :
    Nat → Nat → List Nat → List (Nat × List Nat) → Option (List (Nat × List Nat))
  | 0, _, _, _ => none
  | f + 1, node_id, current_path, path_cache =>
    let path' := current_path ++ [node_id]
    let cache' := (node_id, path') :: path_cache
    match nodes[node_id]? with
    | none => none
    | some node =>
      (List.range node.child_count).foldlM
        (fun c i => buildPathForNode nodes f (node.first_child + i) path' c) cache'

/-- `build_path_cache`: start the traversal from the internal ID of external
root 1 (empty cache when the map has no entry).  Fuel `nodes.length + 1`
suffices for every taxonomy satisfying the contiguity invariant. -/
def Taxonomy.build_path_cache (tx : Taxonomy) : Option (List (Nat × List Nat)) :=
  match alookup tx.external_to_internal_id_map 1 with
  | none => some []
  | some r => buildPathForNode tx.nodes (tx.nodes.length + 1) r [] []

/-- The contiguity invariant of C2/C5: every internal ID in a node's children
range is a real node whose parent is that node, at a strictly larger ID. -/
def contigInv (nodes : List TaxonomyNode) : Prop :=
  ∀ v, v < nodes.length → ∀ w, fcOf nodes v ≤ w → w < fcOf nodes v + ccOf nodes v →
    w < nodes.length ∧ parentOf nodes w = v ∧ v < w

/-- Internal IDs reachable from the internal root 1 through children ranges. -/
inductive ReachableNode (nodes : List TaxonomyNode) : Nat → Prop
  | root : ReachableNode nodes 1
  | child {v w : Nat} : ReachableNode nodes v → v < nodes.length →
      fcOf nodes v ≤ w → w < fcOf nodes v + ccOf nodes v → ReachableNode nodes w

theorem alookup_isSome_of_mem {α : Type} [DecidableEq α] {β : Type}
    {l : List (α × β)} {k : α} {b : β} (h : (k, b) ∈ l) : (alookup l k).isSome = true := by
  induction l with
  | nil => simp at h
  | cons p t ih =>
    obtain ⟨k', v'⟩ := p
    by_cases hk : k = k'
    · simp [alookup, hk]
    · simp [alookup, hk]
      rcases List.mem_cons.mp h with hh | hh
      · exact absurd (congrArg Prod.fst hh) hk
      · exact ih hh

/-- Generic soundness of the sequential children fold: if every individual
step only adds entries satisfying `Q`, so does the whole fold. -/
theorem cacheFold_sound {g : List (Nat × List Nat) → Nat → Option (List (Nat × List Nat))}
    {Q : Nat × List Nat → Prop} :
    ∀ (is : List Nat) (c0 out : List (Nat × List Nat)),
      List.foldlM g c0 is = some out →
      (∀ i ∈ is, ∀ c out', g c i = some out' → ∀ e ∈ out', e ∈ c ∨ Q e) →
      ∀ e ∈ out, e ∈ c0 ∨ Q e := by
  intro is
  induction is with
  | nil =>
    intro c0 out hfold hg e he
    simp [List.foldlM] at hfold
    subst hfold
    exact Or.inl he
  | cons i rest ih =>
    intro c0 out hfold hg e he
    simp only [List.foldlM_cons] at hfold
    cases hstep : g c0 i with
    | none => rw [hstep] at hfold; simp at hfold
    | some c1 =>
      rw [hstep] at hfold
      replace hfold : List.foldlM g c1 rest = some out := by simpa using hfold
      rcases ih c1 out hfold (fun j hj => hg j (List.mem_cons_of_mem _ hj)) e he with h1 | h1
      · exact hg i (List.mem_cons_self _ _) c0 c1 hstep e h1
      · exact Or.inr h1

/-- Generic monotonicity of the sequential children fold. -/
theorem cacheFold_mono {g : List (Nat × List Nat) → Nat → Option (List (Nat × List Nat))} :
    ∀ (is : List Nat) (c0 out : List (Nat × List Nat)),
      List.foldlM g c0 is = some out →
      (∀ i ∈ is, ∀ c out', g c i = some out' → ∀ e ∈ c, e ∈ out') →
      ∀ e ∈ c0, e ∈ out := by
  intro is
  induction is with
  | nil =>
    intro c0 out hfold _ e he
    simp [List.foldlM] at hfold
    subst hfold
    exact he
  | cons i rest ih =>
    intro c0 out hfold hg e he
    simp only [List.foldlM_cons] at hfold
    cases hstep : g c0 i with
    | none => rw [hstep] at hfold; simp at hfold
    | some c1 =>
      rw [hstep] at hfold
      replace hfold : List.foldlM g c1 rest = some out := by simpa using hfold
      exact ih c1 out hfold (fun j hj => hg j (List.mem_cons_of_mem _ hj)) e
        (hg i (List.mem_cons_self _ _) c0 c1 hstep e he)

/-- Generic success of the sequential children fold. -/
theorem cacheFold_total {g : List (Nat × List Nat) → Nat → Option (List (Nat × List Nat))} :
    ∀ (is : List Nat) (c0 : List (Nat × List Nat)),
      (∀ i ∈ is, ∀ c, (g c i).isSome = true) →
      (List.foldlM g c0 is).isSome = true := by
  intro is
  induction is with
  | nil => intro c0 _; simp [List.foldlM]
  | cons i rest ih =>
    intro c0 hg
    simp only [List.foldlM_cons]
    cases hstep : g c0 i with
    | none =>
      have := hg i (List.mem_cons_self _ _) c0
      rw [hstep] at this
      simp at this
    | some c1 =>
      have := ih c1 (fun j hj c => hg j (List.mem_cons_of_mem _ hj) c)
      simpa using this

/-- Each sub-call of the fold succeeds on some intermediate cache, and its
result is contained in the fold's final result. -/
theorem cacheFold_call {g : List (Nat × List Nat) → Nat → Option (List (Nat × List Nat))} :
    ∀ (is : List Nat) (c0 out : List (Nat × List Nat)),
      List.foldlM g c0 is = some out →
      (∀ i c out', g c i = some out' → ∀ e ∈ c, e ∈ out') →
      ∀ i ∈ is, ∃ ci outi, g ci i = some outi ∧ ∀ e ∈ outi, e ∈ out := by
  intro is
  induction is with
  | nil => intro c0 out _ _ i hi; simp at hi
  | cons j rest ih =>
    intro c0 out hfold hg i hi
    simp only [List.foldlM_cons] at hfold
    cases hstep : g c0 j with
    | none => rw [hstep] at hfold; simp at hfold
    | some c1 =>
      rw [hstep] at hfold
      replace hfold : List.foldlM g c1 rest = some out := by simpa using hfold
      rcases List.mem_cons.mp hi with hij | hirest
      · subst hij
        refine ⟨c0, c1, hstep, ?_⟩
        intro e he
        -- everything in c1 survives the rest of the fold
        have : ∀ j' ∈ rest, ∀ c out', g c j' = some out' → ∀ e ∈ c, e ∈ out' :=
          fun j' _ c out' h e he' => hg j' c out' h e he'
        exact cacheFold_mono rest c1 out hfold this e he
      · exact ih c1 out hfold hg i hirest

/-- Precondition of a `build_path_for_node` call: the root call, or a call on
a child in the range of a node already carrying a root path. -/
def callPre (nodes : List TaxonomyNode) (v : Nat) (path : List Nat) : Prop :=
  (path = [] ∧ v = 1) ∨
    ∃ u, RootPath nodes u path ∧ u < nodes.length ∧
      fcOf nodes u ≤ v ∧ v < fcOf nodes u + ccOf nodes u

theorem buildPath_mono {nodes : List TaxonomyNode} :
    ∀ f v path cache out, buildPathForNode nodes f v path cache = some out →
      ∀ e ∈ cache, e ∈ out := by
  intro f
  induction f with
  | zero => intro v path cache out h; simp [buildPathForNode] at h
  | succ f ih =>
    intro v path cache out hrun e he
    simp only [buildPathForNode] at hrun
    cases hnd : nodes[v]? with
    | none => rw [hnd] at hrun; simp at hrun
    | some nd =>
      rw [hnd] at hrun
      refine cacheFold_mono _ _ _ hrun ?_ e (List.mem_cons_of_mem _ he)
      intro i _ c out' hcall e' he'
      exact ih _ _ _ _ hcall e' he'

theorem buildPath_hasKey {nodes : List TaxonomyNode} {f v : Nat} {path : List Nat}
    {cache out : List (Nat × List Nat)}
    (hrun : buildPathForNode nodes f v path cache = some out) :
    (v, path ++ [v]) ∈ out := by
  cases f with
  | zero => simp [buildPathForNode] at hrun
  | succ f =>
    simp only [buildPathForNode] at hrun
    cases hnd : nodes[v]? with
    | none => rw [hnd] at hrun; simp at hrun
    | some nd =>
      rw [hnd] at hrun
      refine cacheFold_mono _ _ _ hrun ?_ _ (List.mem_cons_self _ _)
      intro i _ c out' hcall e' he'
      exact buildPath_mono _ _ _ _ _ hcall e' he'

theorem buildPath_sound {nodes : List TaxonomyNode} (hc : contigInv nodes) :
    ∀ f v path cache out, buildPathForNode nodes f v path cache = some out →
      callPre nodes v path →
      ∀ k l, (k, l) ∈ out → (k, l) ∈ cache ∨ RootPath nodes k l := by
  intro f
  induction f with
  | zero => intro v path cache out h; simp [buildPathForNode] at h
  | succ f ih =>
    intro v path cache out hrun hpre k l hkl
    simp only [buildPathForNode] at hrun
    cases hnd : nodes[v]? with
    | none => rw [hnd] at hrun; simp at hrun
    | some nd =>
      rw [hnd] at hrun
      obtain ⟨hvlen, hget⟩ := List.getElem?_eq_some.mp hnd
      have hgetD : nodes.getD v default = nd := by
        rw [List.getD_eq_getElem _ _ hvlen, hget]
      have hrp : RootPath nodes v (path ++ [v]) := by
        rcases hpre with ⟨hp, hv⟩ | ⟨u, hru, hulen, hge, hlt⟩
        · subst hp; subst hv
          simpa using RootPath.root hvlen
        · obtain ⟨hwlen, hpar, hultv⟩ := hc u hulen v hge hlt
          have h2 : 2 ≤ v := by
            have := hru.one_le
            omega
          exact RootPath.step hru h2 hwlen hpar
      have hfc : fcOf nodes v = nd.first_child := by unfold fcOf; rw [hgetD]
      have hcc : ccOf nodes v = nd.child_count := by unfold ccOf; rw [hgetD]
      have hstep_sound : ∀ i ∈ List.range nd.child_count, ∀ c out',
          buildPathForNode nodes f (nd.first_child + i) (path ++ [v]) c = some out' →
          ∀ e ∈ out', e ∈ c ∨ RootPath nodes e.1 e.2 := by
        intro i hi c out' hcall e he
        have hicc : i < nd.child_count := List.mem_range.mp hi
        have hpre' : callPre nodes (nd.first_child + i) (path ++ [v]) :=
          Or.inr ⟨v, hrp, hvlen, by omega, by omega⟩
        obtain ⟨k', l'⟩ := e
        exact ih _ _ _ _ hcall hpre' k' l' he
      rcases cacheFold_sound _ _ _ hrun hstep_sound (k, l) hkl with hin | hrp'
      · rcases List.mem_cons.mp hin with heq | hin2
        · right
          obtain ⟨hk, hl⟩ := Prod.mk.injEq .. ▸ heq
          rw [Prod.mk.injEq] at heq
          rw [heq.1, heq.2]
          exact hrp
        · exact Or.inl hin2
      · exact Or.inr hrp'

theorem buildPath_total {nodes : List TaxonomyNode} (hc : contigInv nodes) :
    ∀ f v path cache, v < nodes.length → nodes.length + 1 - v ≤ f →
      (buildPathForNode nodes f v path cache).isSome = true := by
  intro f
  induction f with
  | zero => intro v path cache hv hf; omega
  | succ f ih =>
    intro v path cache hv hf
    simp only [buildPathForNode]
    cases hnd : nodes[v]? with
    | none =>
      rw [List.getElem?_eq_none_iff] at hnd
      omega
    | some nd =>
      obtain ⟨hvlen, hget⟩ := List.getElem?_eq_some.mp hnd
      have hgetD : nodes.getD v default = nd := by
        rw [List.getD_eq_getElem _ _ hvlen, hget]
      have hfc : fcOf nodes v = nd.first_child := by unfold fcOf; rw [hgetD]
      have hcc : ccOf nodes v = nd.child_count := by unfold ccOf; rw [hgetD]
      refine cacheFold_total _ _ ?_
      intro i hi c
      have hicc : i < nd.child_count := List.mem_range.mp hi
      obtain ⟨hwlen, hpar, hvlt⟩ := hc v hvlen (nd.first_child + i) (by omega) (by omega)
      exact ih (nd.first_child + i) (path ++ [v]) c hwlen (by omega)

theorem reachable_called {nodes : List TaxonomyNode} {F : Nat} {C : List (Nat × List Nat)}
    (hrun : buildPathForNode nodes F 1 [] [] = some C) :
    ∀ w, ReachableNode nodes w → ∃ f path cin cout,
      buildPathForNode nodes f w path cin = some cout ∧ ∀ e ∈ cout, e ∈ C := by
  intro w hw
  induction hw with
  | root => exact ⟨F, [], [], C, hrun, fun e he => he⟩
  | child hv hvlen hge hlt ih =>
    rename_i v w
    obtain ⟨f, path, cin, cout, hcall, hsub⟩ := ih
    cases f with
    | zero => simp [buildPathForNode] at hcall
    | succ f =>
      simp only [buildPathForNode] at hcall
      cases hnd : nodes[v]? with
      | none => rw [hnd] at hcall; simp at hcall
      | some nd =>
        rw [hnd] at hcall
        obtain ⟨hvl, hget⟩ := List.getElem?_eq_some.mp hnd
        have hgetD : nodes.getD v default = nd := by
          rw [List.getD_eq_getElem _ _ hvl, hget]
        have hfc : fcOf nodes v = nd.first_child := by unfold fcOf; rw [hgetD]
        have hcc : ccOf nodes v = nd.child_count := by unfold ccOf; rw [hgetD]
        have hi : w - nd.first_child < nd.child_count := by omega
        have hw_eq : nd.first_child + (w - nd.first_child) = w := by omega
        have hmono : ∀ i c o, (fun c i => buildPathForNode nodes f (nd.first_child + i)
            (path ++ [v]) c) c i = some o → ∀ e ∈ c, e ∈ o := by
          intro i c o hcall' e he
          exact buildPath_mono _ _ _ _ _ hcall' e he
        obtain ⟨ci, outi, hgi, houti⟩ :=
          cacheFold_call _ _ _ hcall hmono (w - nd.first_child) (List.mem_range.mpr hi)
        rw [hw_eq] at hgi
        exact ⟨f, path ++ [v], ci, outi, hgi, fun e he => hsub e (houti e he)⟩

/-- C5: after `build_path_cache` on a Taxonomy satisfying the
contiguous-children invariant (with the ID map sending external root 1 to
internal root 1), every cache entry is exactly the root-to-node path — it
begins with 1, ends with its key, each entry's parent is the preceding entry,
and all entries are real nodes — and every node reachable from the root has a
cache entry. -/
theorem c5_build_path_cache (tx : Taxonomy) (hc : contigInv tx.nodes)
    (h1 : alookup tx.external_to_internal_id_map 1 = some 1)
    {C : List (Nat × List Nat)} (hbuild : tx.build_path_cache = some C) :
    (∀ v l, alookup C v = some l → goodPath tx.nodes v l) ∧
    (∀ w, ReachableNode tx.nodes w → (alookup C w).isSome = true) := by
  unfold Taxonomy.build_path_cache at hbuild
  rw [h1] at hbuild
  constructor
  · intro v l hl
    have hmem := alookup_mem hl
    rcases buildPath_sound hc _ _ _ _ _ hbuild (Or.inl ⟨rfl, rfl⟩) v l hmem with h | h
    · simp at h
    · exact h.to_goodPath
  · intro w hw
    obtain ⟨f, path, cin, cout, hcall, hsub⟩ := reachable_called hbuild w hw
    exact alookup_isSome_of_mem (hsub _ (buildPath_hasKey hcall))

/-- Under the contiguity invariant the fuel `nodes.length + 1` chosen by
`build_path_cache` always suffices. -/
theorem build_path_cache_total (tx : Taxonomy) (hc : contigInv tx.nodes)
    (h1 : alookup tx.external_to_internal_id_map 1 = some 1)
    (hlen : 1 < tx.nodes.length) : (tx.build_path_cache).isSome = true := by
  unfold Taxonomy.build_path_cache
  rw [h1]
  exact buildPath_total hc _ 1 [] [] hlen (by omega)

/-- The 8 little-endian bytes of a `u64` value (`to_le_bytes`). -/
def u64ToLE (n : Nat) : List Nat :=
  [n % 256, n / 256 % 256, n / 256 ^ 2 % 256, n / 256 ^ 3 % 256,
   n / 256 ^ 4 % 256, n / 256 ^ 5 % 256, n / 256 ^ 6 % 256, n / 256 ^ 7 % 256]

/-- Read one little-endian `u64` from a byte stream (`read_exact` on 8 bytes
plus the in-memory reinterpretation, which on the target platform is
little-endian). -/
def readU64 : List Nat → Option (Nat × List Nat)
  | b0 :: b1 :: b2 :: b3 :: b4 :: b5 :: b6 :: b7 :: rest =>
    some (b0 + 256 * (b1 + 256 * (b2 + 256 * (b3 + 256 * (b4 + 256 *
      (b5 + 256 * (b6 + 256 * b7)))))), rest)
  | _ => none

theorem readU64_u64ToLE (n : Nat) (h : n < 2 ^ 64) (rest : List Nat) :
    readU64 (u64ToLE n ++ rest) = some (n, rest) := by
  simp only [u64ToLE, List.cons_append, List.nil_append, readU64, Option.some.injEq,
    Prod.mk.injEq]
  exact ⟨by omega, trivial⟩

/-- The magic bytes `K2TAXDAT`. -/
def k2Magic : List Nat := [75, 50, 84, 65, 88, 68, 65, 84]

/-- One 56-byte node record, 7 `u64` fields in declaration order. -/
def serializeNode (nd : TaxonomyNode) : List Nat :=
  u64ToLE nd.parent_id ++ u64ToLE nd.first_child ++ u64ToLE nd.child_count ++
    u64ToLE nd.name_offset ++ u64ToLE nd.rank_offset ++ u64ToLE nd.external_id ++
    u64ToLE nd.godparent_id

/-- `write_to_disk`: magic, header (node count, blob lengths), the node
records, then the two blobs. -/
def Taxonomy.write_to_disk (tx : Taxonomy) : List Nat :=
  k2Magic ++ u64ToLE tx.nodes.length ++ u64ToLE tx.name_data.length ++
    u64ToLE tx.rank_data.length ++ (tx.nodes.map serializeNode).flatten ++
    tx.name_data ++ tx.rank_data

/-- Decode one 56-byte node record. -/
def readNode (bytes : List Nat) : Option (TaxonomyNode × List Nat) := do
  let (parent_id, r1) ← readU64 bytes
  let (first_child, r2) ← readU64 r1
  let (child_count, r3) ← readU64 r2
  let (name_offset, r4) ← readU64 r3
  let (rank_offset, r5) ← readU64 r4
  let (external_id, r6) ← readU64 r5
  let (godparent_id, r7) ← readU64 r6
  some ({ parent_id, first_child, child_count, name_offset, rank_offset,
          external_id, godparent_id }, r7)

/-- Decode exactly `count` node records. -/
def readNodes : Nat → List Nat → Option (List TaxonomyNode × List Nat)
  | 0, bytes => some ([], bytes)
  | n + 1, bytes => do
    let (nd, rest) ← readNode bytes
    let (nds, rest') ← readNodes n rest
    some (nd :: nds, rest')

/-- `read_exact` into a buffer of length `n`. -/
def readExact (n : Nat) (bytes : List Nat) : Option (List Nat × List Nat) :=
  if bytes.length < n then none else some (bytes.take n, bytes.drop n)

/-- The external-to-internal map `from_file` rebuilds: insert
`external_id ↦ index` for every node in order; a later insert shadows an
earlier one (`HashMap::insert`). -/
def buildExtMapAux (i : Nat) : List TaxonomyNode → List (Nat × Nat)
  | [] => []
  | nd :: rest => buildExtMapAux (i + 1) rest ++ [(nd.external_id, i)]

def buildExtMap (nodes : List TaxonomyNode) : List (Nat × Nat) :=
  buildExtMapAux 0 nodes

/-- `from_file` on the bytes of the file: check the magic, read the header,
exactly `node_count` records, then the two blobs; rebuild the ID map and
build the path cache. -/
def taxonomyFromFileBytes (bytes : List Nat) : Option Taxonomy := do
  let (magic, r0) ← readExact 8 bytes
  if magic ≠ k2Magic then none
  else do
    let (node_count, r1) ← readU64 r0
    let (name_data_len, r2) ← readU64 r1
    let (rank_data_len, r3) ← readU64 r2
    let (nodes, r4) ← readNodes node_count r3
    let (name_data, r5) ← readExact name_data_len r4
    let (rank_data, _r6) ← readExact rank_data_len r5
    let tx0 : Taxonomy :=
      { path_cache := [], nodes := nodes, name_data := name_data,
        rank_data := rank_data, external_to_internal_id_map := buildExtMap nodes }
    let cache ← tx0.build_path_cache
    some { tx0 with path_cache := cache }

theorem readNode_serializeNode (nd : TaxonomyNode)
    (hb : nd.parent_id < 2 ^ 64 ∧ nd.first_child < 2 ^ 64 ∧ nd.child_count < 2 ^ 64 ∧
      nd.name_offset < 2 ^ 64 ∧ nd.rank_offset < 2 ^ 64 ∧ nd.external_id < 2 ^ 64 ∧
      nd.godparent_id < 2 ^ 64) (rest : List Nat) :
    readNode (serializeNode nd ++ rest) = some (nd, rest) := by
  obtain ⟨h1, h2, h3, h4, h5, h6, h7⟩ := hb
  unfold serializeNode readNode
  rw [List.append_assoc, List.append_assoc, List.append_assoc, List.append_assoc,
    List.append_assoc, List.append_assoc]
  rw [readU64_u64ToLE _ h1]
  simp only [Option.bind_eq_bind, Option.some_bind]
  rw [readU64_u64ToLE _ h2]
  simp only [Option.some_bind]
  rw [readU64_u64ToLE _ h3]
  simp only [Option.some_bind]
  rw [readU64_u64ToLE _ h4]
  simp only [Option.some_bind]
  rw [readU64_u64ToLE _ h5]
  simp only [Option.some_bind]
  rw [readU64_u64ToLE _ h6]
  simp only [Option.some_bind]
  rw [readU64_u64ToLE _ h7]
  rfl

theorem readNodes_roundTrip :
    ∀ (nds : List TaxonomyNode) (rest : List Nat),
      (∀ nd ∈ nds, nd.parent_id < 2 ^ 64 ∧ nd.first_child < 2 ^ 64 ∧
        nd.child_count < 2 ^ 64 ∧ nd.name_offset < 2 ^ 64 ∧ nd.rank_offset < 2 ^ 64 ∧
        nd.external_id < 2 ^ 64 ∧ nd.godparent_id < 2 ^ 64) →
      readNodes nds.length ((nds.map serializeNode).flatten ++ rest) = some (nds, rest) := by
  intro nds
  induction nds with
  | nil => intro rest _; rfl
  | cons nd t ih =>
    intro rest hb
    show readNodes (t.length + 1) _ = _
    unfold readNodes
    simp only [List.map_cons, List.flatten_cons, List.append_assoc]
    rw [readNode_serializeNode nd (hb nd (List.mem_cons_self _ _))]
    simp only [Option.bind_eq_bind, Option.some_bind]
    rw [ih rest (fun x hx => hb x (List.mem_cons_of_mem _ hx))]
    rfl

theorem readExact_append (l rest : List Nat) :
    readExact l.length (l ++ rest) = some (l, rest) := by
  unfold readExact
  rw [if_neg (by simp)]
  rw [List.take_left, List.drop_left]

theorem alookup_append {β : Type} (l1 l2 : List (Nat × β)) (k : Nat) :
    alookup (l1 ++ l2) k =
      match alookup l1 k with
      | some v => some v
      | none => alookup l2 k := by
  induction l1 with
  | nil => rfl
  | cons p t ih =>
    obtain ⟨k', v'⟩ := p
    by_cases hk : k = k'
    · simp [alookup, hk]
    · simp only [List.cons_append, alookup, if_neg hk]
      exact ih

theorem buildExtMapAux_lookup_none :
    ∀ (nodes : List TaxonomyNode) (i e : Nat),
      (∀ t, t < nodes.length → (nodes.getD t default).external_id ≠ e) →
      alookup (buildExtMapAux i nodes) e = none := by
  intro nodes
  induction nodes with
  | nil => intro i e _; rfl
  | cons nd rest ih =>
    intro i e habs
    unfold buildExtMapAux
    rw [alookup_append]
    rw [ih (i + 1) e (fun t ht => habs (t + 1) (by simp; omega))]
    have hne : e ≠ nd.external_id := fun hc => habs 0 (by simp) (by simpa using hc.symm)
    simp [alookup, hne]

theorem buildExtMapAux_lookup :
    ∀ (nodes : List TaxonomyNode) (i t e : Nat), t < nodes.length →
      (nodes.getD t default).external_id = e →
      (∀ s, s < nodes.length → s ≠ t → (nodes.getD s default).external_id ≠ e) →
      alookup (buildExtMapAux i nodes) e = some (i + t) := by
  intro nodes
  induction nodes with
  | nil => intro i t e ht; simp at ht
  | cons nd rest ih =>
    intro i t e ht hext huniq
    unfold buildExtMapAux
    rw [alookup_append]
    cases t with
    | zero =>
      have hnone : alookup (buildExtMapAux (i + 1) rest) e = none := by
        refine buildExtMapAux_lookup_none rest (i + 1) e ?_
        intro s hs
        exact huniq (s + 1) (by simp; omega) (by omega)
      rw [hnone]
      have he : e = nd.external_id := by simpa using hext.symm
      simp [alookup, he]
    | succ t =>
      have hrec : alookup (buildExtMapAux (i + 1) rest) e = some (i + 1 + t) := by
        refine ih (i + 1) t e (by simp at ht; omega) (by simpa using hext) ?_
        intro s hs hst
        exact huniq (s + 1) (by simp; omega) (by omega)
      rw [hrec]
      show some (i + 1 + t) = some (i + (t + 1))
      congr 1
      omega

theorem buildExtMap_lookup_one {nodes : List TaxonomyNode} (hlen : 1 < nodes.length)
    (hext : (nodes.getD 1 default).external_id = 1)
    (hnodup : (nodes.map TaxonomyNode.external_id).Nodup) :
    alookup (buildExtMap nodes) 1 = some 1 := by
  have huniq : ∀ s, s < nodes.length → s ≠ 1 → (nodes.getD s default).external_id ≠ 1 := by
    intro s hs hs1 hc
    apply hs1
    have hs2 : s < (nodes.map TaxonomyNode.external_id).length := by simpa using hs
    have hl2 : 1 < (nodes.map TaxonomyNode.external_id).length := by simpa using hlen
    have hmap : (nodes.map TaxonomyNode.external_id)[s] =
        (nodes.map TaxonomyNode.external_id)[1] := by
      simp only [List.getElem_map]
      rw [← List.getD_eq_getElem nodes default hs, ← List.getD_eq_getElem nodes default hlen]
      rw [hc, hext]
    exact (List.Nodup.getElem_inj_iff hnodup).mp hmap
  have := buildExtMapAux_lookup nodes 0 1 1 hlen hext huniq
  simpa [buildExtMap] using this

theorem readExact_self (l : List Nat) : readExact l.length l = some (l, []) := by
  have := readExact_append l []
  simpa using this

/-- A compacted `Taxonomy`: sentinel at index 0, root at index 1 carrying
external ID 1, duplicate-free external IDs, an ID map sending external 1 to
internal 1, contiguous children ranges, and `u64`-sized fields and lengths.
`convert_to_kraken_taxonomy` (plus map generation) establishes all of this. -/
def Compacted (tx : Taxonomy) : Prop :=
  2 ≤ tx.nodes.length ∧
  tx.nodes.getD 0 default = default ∧
  (tx.nodes.getD 1 default).external_id = 1 ∧
  (tx.nodes.map TaxonomyNode.external_id).Nodup ∧
  alookup tx.external_to_internal_id_map 1 = some 1 ∧
  contigInv tx.nodes ∧
  (∀ nd ∈ tx.nodes, nd.parent_id < 2 ^ 64 ∧ nd.first_child < 2 ^ 64 ∧
    nd.child_count < 2 ^ 64 ∧ nd.name_offset < 2 ^ 64 ∧ nd.rank_offset < 2 ^ 64 ∧
    nd.external_id < 2 ^ 64 ∧ nd.godparent_id < 2 ^ 64) ∧
  tx.nodes.length < 2 ^ 64 ∧ tx.name_data.length < 2 ^ 64 ∧ tx.rank_data.length < 2 ^ 64

/-- C4: for every compacted Taxonomy, `write_to_disk` followed by `from_file`
yields a Taxonomy with identical `nodes`, `name_data` and `rank_data`, and a
`path_cache` equal to the one (re)built on the original. -/
theorem c4_round_trip (tx : Taxonomy) (hcomp : Compacted tx) :
    ∃ tx', taxonomyFromFileBytes tx.write_to_disk = some tx' ∧
      tx'.nodes = tx.nodes ∧ tx'.name_data = tx.name_data ∧ tx'.rank_data = tx.rank_data ∧
      ∃ cache, tx.build_path_cache = some cache ∧ tx'.path_cache = cache := by
  obtain ⟨hlen2, hsent, hext1, hnodup, hmap1, hcontig, hbounds, hblen, hnlen, hrlen⟩ := hcomp
  have hcs : (tx.build_path_cache).isSome = true :=
    build_path_cache_total tx hcontig hmap1 (by omega)
  obtain ⟨cache, hcache⟩ := Option.isSome_iff_exists.mp hcs
  refine ⟨{ path_cache := cache, nodes := tx.nodes, name_data := tx.name_data,
            rank_data := tx.rank_data,
            external_to_internal_id_map := buildExtMap tx.nodes },
    ?_, rfl, rfl, rfl, cache, hcache, rfl⟩
  unfold Taxonomy.write_to_disk taxonomyFromFileBytes
  simp only [List.append_assoc]
  have h0 : readExact 8 (k2Magic ++ (u64ToLE tx.nodes.length ++ (u64ToLE tx.name_data.length ++
      (u64ToLE tx.rank_data.length ++ ((tx.nodes.map serializeNode).flatten ++
      (tx.name_data ++ tx.rank_data)))))) =
      some (k2Magic, u64ToLE tx.nodes.length ++ (u64ToLE tx.name_data.length ++
      (u64ToLE tx.rank_data.length ++ ((tx.nodes.map serializeNode).flatten ++
      (tx.name_data ++ tx.rank_data))))) := readExact_append k2Magic _
  rw [h0]
  simp only [Option.bind_eq_bind, Option.some_bind, ne_eq, not_true_eq_false, if_false]
  rw [readU64_u64ToLE _ hblen]
  simp only [Option.some_bind]
  rw [readU64_u64ToLE _ hnlen]
  simp only [Option.some_bind]
  rw [readU64_u64ToLE _ hrlen]
  simp only [Option.some_bind]
  rw [readNodes_roundTrip tx.nodes _ hbounds]
  simp only [Option.some_bind]
  rw [readExact_append tx.name_data tx.rank_data]
  simp only [Option.some_bind]
  rw [readExact_self tx.rank_data]
  simp only [Option.some_bind]
  have hc0 : Taxonomy.build_path_cache
      { path_cache := [], nodes := tx.nodes, name_data := tx.name_data,
        rank_data := tx.rank_data,
        external_to_internal_id_map := buildExtMap tx.nodes } = some cache := by
    unfold Taxonomy.build_path_cache
    rw [buildExtMap_lookup_one hlen2 hext1 hnodup]
    unfold Taxonomy.build_path_cache at hcache
    rw [hmap1] at hcache
    exact hcache
  rw [hc0]
  rfl

/-- UTF-8 bytes of one character. -/
def charUtf8 (c : Char) : List Nat :=
  let n := c.toNat
  if n < 128 then [n]
  else if n < 2048 then [192 + n / 64, 128 + n % 64]
  else if n < 65536 then [224 + n / 4096, 128 + n / 64 % 64, 128 + n % 64]
  else [240 + n / 262144, 128 + n / 4096 % 64, 128 + n / 64 % 64, 128 + n % 64]

/-- The UTF-8 bytes of a string (`String::len` and `into_bytes` agree on it). -/
def strBytes (s : String) : List Nat :=
  (s.data.map charUtf8).flatten

/-- Lexicographic order on character lists; on valid UTF-8 this is exactly
Rust's byte-wise `Ord` on `String` used by `sort_unstable`. -/
def charListLE : List Char → List Char → Bool
  | [], _ => true
  | _ :: _, [] => false
  | a :: as, b :: bs =>
    if a.toNat < b.toNat then true
    else if b.toNat < a.toNat then false
    else charListLE as bs

def strLE (a b : String) : Bool :=
  charListLE a.data b.data

/-- `get_rank_offset_data`: sort the known rank strings, concatenate them
null-terminated, and record each rank's byte offset. -/
def getRankOffsetData (tx : NCBITaxonomy) : List (String × Nat) × List Nat :=
  let sorted := tx.known_ranks.insertionSort (fun a b => strLE a b = true)
  sorted.foldl
    (fun (acc : List (String × Nat) × List Nat) rank =>
      ((rank, acc.2.length) :: acc.1, acc.2 ++ strBytes rank ++ [0]))
    ([], [])

/-- The child set of an external ID (empty when absent). -/
def childList (tx : NCBITaxonomy) (p : Nat) : List Nat :=
  (alookup tx.child_map p).getD []

/-- The children enqueued for a dequeued node: its child set sorted by
external ID, keeping only marked ones. -/
def sortedMarked (tx : NCBITaxonomy) (e : Nat) : List Nat :=
  ((childList tx e).insertionSort (· ≤ ·)).filter (fun c => c ∈ tx.marked_nodes)

/-- The BFS loop state of `convert_to_kraken_taxonomy`. -/
structure ConvState where
  nodes : List TaxonomyNode
  name_data : List Nat
  queue : List Nat
  idMap : List (Nat × Nat)
  next_id : Nat
  deriving DecidableEq

/-- The successor state of one successful BFS iteration on dequeued node `e`:
the new node record (parent `pid`, `first_child` just past the whole current
queue, one child per marked sorted child, name offset at the current end of
the name blob), the extended name blob, the children enqueued, the ID map
extended with `e`, and the next internal ID. -/
def stepState (tx : NCBITaxonomy) (st : ConvState) (e : Nat) (rest : List Nat)
    (pid roff : Nat) (name : String) : ConvState where
  nodes := st.nodes ++
    [{ parent_id := pid, first_child := st.next_id + 1 + rest.length + 1,
       child_count := (sortedMarked tx e).length, name_offset := st.name_data.length,
       rank_offset := roff, external_id := e, godparent_id := 0 }]
  name_data := st.name_data ++ strBytes name ++ [0]
  queue := rest ++ sortedMarked tx e
  idMap := (e, st.next_id + 1) :: st.idMap
  next_id := st.next_id + 1

/-- One iteration of the BFS loop on dequeued external ID `e` with remaining
queue `rest`: record the internal ID, look up the already-assigned internal
parent, rank offset and scientific name (each `unwrap` is a `none`), then
append the node and enqueue the marked children in sorted order. -/
def convertStep (tx : NCBITaxonomy) (rankOffsets : List (String × Nat))
    (st : ConvState) (e : Nat) (rest : List Nat) : Option ConvState := do
  let pext ← alookup tx.parent_map e
  let pid ← alookup ((e, st.next_id + 1) :: st.idMap) pext
  let rk ← alookup tx.rank_map e
  let roff ← alookup rankOffsets rk
  let name ← alookup tx.name_map e
  some (stepState tx st e rest pid roff name)

/-- The fueled BFS loop (`while let Some(external_node_id) = bfs_queue.pop_front()`). -/
def convertLoop (tx : NCBITaxonomy) (rankOffsets : List (String × Nat)) :
    Nat → ConvState → Option (List TaxonomyNode × List Nat)
  | 0, _ => none
  | f + 1, st =>
    match st.queue with
    | [] => some (st.nodes, st.name_data)
    | e :: rest => (convertStep tx rankOffsets st e rest).bind (convertLoop tx rankOffsets f)

/-- The loop's initial state: sentinel node 0, queue `[1]`, and the map
preloaded with `0 ↦ 0` and `1 ↦ 1`. -/
def initConvState : ConvState :=
  { nodes := [default], name_data := [], queue := [1], idMap := [(1, 1), (0, 0)], next_id := 0 }

/-- `convert_to_kraken_taxonomy` (fueled): run the BFS and package the result;
`path_cache` and the external-to-internal map are left unbuilt. -/
def NCBITaxonomy.convert_to_kraken_taxonomy (tx : NCBITaxonomy) (f : Nat) : Option Taxonomy :=
  (convertLoop tx (getRankOffsetData tx).1 f initConvState).map
    (fun p => { path_cache := [], nodes := p.1, name_data := p.2,
                rank_data := (getRankOffsetData tx).2, external_to_internal_id_map := [] })

theorem convertStep_some {tx : NCBITaxonomy} {ro : List (String × Nat)} {st : ConvState}
    {e : Nat} {rest : List Nat} {st' : ConvState}
    (h : convertStep tx ro st e rest = some st') :
    ∃ pext pid rk roff name,
      alookup tx.parent_map e = some pext ∧
      alookup ((e, st.next_id + 1) :: st.idMap) pext = some pid ∧
      alookup tx.rank_map e = some rk ∧
      alookup ro rk = some roff ∧
      alookup tx.name_map e = some name ∧
      st' = stepState tx st e rest pid roff name := by
  unfold convertStep at h
  cases h1 : alookup tx.parent_map e with
  | none => rw [h1] at h; simp at h
  | some pext =>
    rw [h1] at h
    simp only [Option.bind_eq_bind, Option.some_bind] at h
    cases h2 : alookup ((e, st.next_id + 1) :: st.idMap) pext with
    | none => rw [h2] at h; simp at h
    | some pid =>
      rw [h2] at h
      simp only [Option.some_bind] at h
      cases h3 : alookup tx.rank_map e with
      | none => rw [h3] at h; simp at h
      | some rk =>
        rw [h3] at h
        simp only [Option.some_bind] at h
        cases h4 : alookup ro rk with
        | none => rw [h4] at h; simp at h
        | some roff =>
          rw [h4] at h
          simp only [Option.some_bind] at h
          cases h5 : alookup tx.name_map e with
          | none => rw [h5] at h; simp at h
          | some name =>
            rw [h5] at h
            simp only [Option.some_bind, Option.some.injEq] at h
            exact ⟨pext, pid, rk, roff, name, rfl, h2, rfl, h4, rfl, h.symm⟩

theorem mem_sortedMarked {tx : NCBITaxonomy} {e c : Nat} :
    c ∈ sortedMarked tx e ↔ c ∈ childList tx e ∧ c ∈ tx.marked_nodes := by
  unfold sortedMarked
  rw [List.mem_filter]
  rw [(List.perm_insertionSort _ _).mem_iff]
  simp

/-- A marked self-parent node in the queue makes the BFS loop re-enqueue it
forever: the loop diverges (`none` at every fuel). -/
theorem convertLoop_none_of_selfLoop (tx : NCBITaxonomy) (ro : List (String × Nat)) :
    ∀ f st, (∃ e ∈ st.queue, alookup tx.parent_map e = some e ∧ e ∈ tx.marked_nodes ∧
      e ∈ childList tx e) → convertLoop tx ro f st = none := by
  intro f
  induction f with
  | zero => intro st _; rfl
  | succ f ih =>
    intro st h
    obtain ⟨e, heq, hpe, hme, hce⟩ := h
    unfold convertLoop
    cases hq : st.queue with
    | nil => rw [hq] at heq; simp at heq
    | cons hd rest =>
      rw [hq] at heq
      show (convertStep tx ro st hd rest).bind (convertLoop tx ro f) = none
      cases hstep : convertStep tx ro st hd rest with
      | none => rfl
      | some st' =>
        simp only [Option.some_bind]
        apply ih
        obtain ⟨pext, pid, rk, roff, name, _, _, _, _, _, hst'⟩ := convertStep_some hstep
        have hqueue : st'.queue = rest ++ sortedMarked tx hd := by rw [hst']; rfl
        rcases List.mem_cons.mp heq with rfl | hrest
        · refine ⟨e, ?_, hpe, hme, hce⟩
          rw [hqueue]
          exact List.mem_append_right _ (mem_sortedMarked.mpr ⟨hce, hme⟩)
        · exact ⟨e, by rw [hqueue]; exact List.mem_append_left _ hrest, hpe, hme, hce⟩

theorem getD_append_length {α : Type} [Inhabited α] (l : List α) (x d : α) :
    (l ++ [x]).getD l.length d = x := by
  rw [List.getD_append_right]
  · simp
  · exact le_refl _

/-- Parse-consistency of an `NCBITaxonomy`: any member of a child set has a
parent entry and lies in the child set of that recorded parent.
`parse_nodes_file` establishes this (a line `c | p | r` inserts `c` into the
child set of the parent it records), even when duplicate lines for one node
leave `c` in several child sets. -/
def pcConsistent (tx : NCBITaxonomy) : Prop :=
  ∀ p c, c ∈ childList tx p →
    ∃ q, alookup tx.parent_map c = some q ∧ c ∈ childList tx q

/-- Executable check of `pcConsistent`. -/
def pcCheck (tx : NCBITaxonomy) : Bool :=
  tx.child_map.all (fun pr => (childList tx pr.1).all (fun c =>
    match alookup tx.parent_map c with
    | some q => (childList tx q).contains c
    | none => false))

theorem pcCheck_sound {tx : NCBITaxonomy} (h : pcCheck tx = true) : pcConsistent tx := by
  intro p c hc
  have hlk : ∃ l, alookup tx.child_map p = some l ∧ c ∈ l := by
    unfold childList at hc
    cases hl : alookup tx.child_map p with
    | none => rw [hl] at hc; simp at hc
    | some l => exact ⟨l, rfl, by rw [hl] at hc; simpa using hc⟩
  obtain ⟨l, hl, hcl⟩ := hlk
  rw [pcCheck, List.all_eq_true] at h
  have h2 := h (p, l) (alookup_mem hl)
  rw [List.all_eq_true] at h2
  have h3 := h2 c hc
  cases hq : alookup tx.parent_map c with
  | none => rw [hq] at h3; simp at h3
  | some q =>
    rw [hq] at h3
    refine ⟨q, rfl, ?_⟩
    simpa [List.contains] using h3

/-- The invariant that carries C1 through the BFS loop. -/
def inv1 (tx : NCBITaxonomy) (st : ConvState) : Prop :=
  st.nodes.length = st.next_id + 1 ∧
  (∀ pr ∈ st.idMap, pr.2 ≤ st.next_id ∨ pr = ((1 : Nat), (1 : Nat))) ∧
  ((st.queue = [1] ∧ st.next_id = 0) ∨
    (1 ≤ st.next_id ∧ ∀ c ∈ st.queue, c ∈ tx.marked_nodes ∧ ∃ p, c ∈ childList tx p)) ∧
  (∀ w, 2 ≤ w → w ≤ st.next_id → (st.nodes.getD w default).parent_id < w)

theorem convertLoop_mono (tx : NCBITaxonomy) (ro : List (String × Nat))
    (hpc : pcConsistent tx) :
    ∀ f st out, convertLoop tx ro f st = some out → inv1 tx st →
      ∀ w, 2 ≤ w → w < out.1.length → (out.1.getD w default).parent_id < w := by
  intro f
  induction f with
  | zero => intro st out h; simp [convertLoop] at h
  | succ f ih =>
    intro st out hrun hinv w h2 hw
    obtain ⟨hlen, hid, hbranch, hnodes⟩ := hinv
    cases hq : st.queue with
    | nil =>
      unfold convertLoop at hrun
      rw [hq] at hrun
      have hout : out = (st.nodes, st.name_data) := (Option.some.inj hrun).symm
      subst hout
      refine hnodes w h2 ?_
      simp only at hw
      omega
    | cons e rest =>
      unfold convertLoop at hrun
      rw [hq] at hrun
      replace hrun : (convertStep tx ro st e rest).bind (convertLoop tx ro f) = some out := hrun
      cases hstep : convertStep tx ro st e rest with
      | none => rw [hstep] at hrun; simp at hrun
      | some st' =>
        rw [hstep] at hrun
        simp only [Option.some_bind] at hrun
        obtain ⟨pext, pid, rk, roff, name, hpe, hpid, hrk, hroff, hname, hst'⟩ :=
          convertStep_some hstep
        rcases hbranch with ⟨hq1, hn0⟩ | ⟨hn1, hqmark⟩
        · -- initial state: the root is processed, internal ID 1
          rw [hq] at hq1
          injection hq1 with he hrest
          subst he
          subst hrest
          refine ih st' out hrun ?_ w h2 hw
          subst hst'
          refine ⟨by simp [stepState, hlen], ?_, ?_, ?_⟩
          · intro pr hpr
            rcases List.mem_cons.mp hpr with rfl | hold
            · left; simp [stepState]
            · rcases hid pr hold with hle | heq1
              · left; simp only [stepState]; omega
              · right; exact heq1
          · right
            refine ⟨by simp [stepState], ?_⟩
            intro c hc
            simp only [stepState, List.nil_append] at hc
            have hm := mem_sortedMarked.mp hc
            exact ⟨hm.2, 1, hm.1⟩
          · intro w' h2' hw'
            simp only [stepState] at hw'
            omega
        · -- a later iteration: internal ID at least 2
          by_cases hself : pext = e
          · exfalso
            have hqe : e ∈ st.queue := by rw [hq]; exact List.mem_cons_self _ _
            obtain ⟨hmarked, p0, hchild⟩ := hqmark e hqe
            obtain ⟨q, hq', hcq⟩ := hpc p0 e hchild
            rw [hpe] at hq'
            have hqq : q = e := by
              injection hq' with h
              rw [← hself]
              exact h.symm
            have hpe' : alookup tx.parent_map e = some e := by rw [hpe, hself]
            have hcq' : e ∈ childList tx e := by rw [hqq] at hcq; exact hcq
            have hce : e ∈ st'.queue := by
              rw [hst']
              show e ∈ rest ++ sortedMarked tx e
              exact List.mem_append_right _ (mem_sortedMarked.mpr ⟨hcq', hmarked⟩)
            have hdiv := convertLoop_none_of_selfLoop tx ro f st' ⟨e, hce, hpe', hmarked, hcq'⟩
            rw [hdiv] at hrun
            simp at hrun
          · have hpid' : alookup st.idMap pext = some pid := by
              rw [alookup, if_neg hself] at hpid
              exact hpid
            have hple : pid < st.next_id + 1 := by
              rcases hid (pext, pid) (alookup_mem hpid') with hle | heqq
              · simp only at hle; omega
              · have : pid = 1 := congrArg Prod.snd heqq
                omega
            refine ih st' out hrun ?_ w h2 hw
            subst hst'
            refine ⟨by simp [stepState, hlen], ?_, ?_, ?_⟩
            · intro pr hpr
              rcases List.mem_cons.mp hpr with rfl | hold
              · left; simp [stepState]
              · rcases hid pr hold with hle | he1
                · left; simp only [stepState]; omega
                · right; exact he1
            · right
              refine ⟨by simp only [stepState]; omega, ?_⟩
              intro c hc
              simp only [stepState] at hc
              rcases List.mem_append.mp hc with hcr | hcs
              · exact hqmark c (by rw [hq]; exact List.mem_cons_of_mem _ hcr)
              · have hm := mem_sortedMarked.mp hcs
                exact ⟨hm.2, e, hm.1⟩
            · intro w' h2' hw'
              simp only [stepState] at hw' ⊢
              rcases Nat.lt_or_ge w' (st.next_id + 1) with hlt | hge
              · rw [List.getD_append _ _ _ _ (by omega)]
                exact hnodes w' h2' (by omega)
              · have hw'eq : w' = st.next_id + 1 := by omega
                have hlenn : st.nodes.length = w' := by omega
                rw [← hlenn] at hw'eq ⊢
                rw [getD_append_length]
                simp only []
                omega

/-- C1: for every Taxonomy produced by `convert_to_kraken_taxonomy` on a
parse-consistent `NCBITaxonomy` (which `parse_nodes_file` always yields),
every real node other than the sentinel 0 and the root 1 has
`parent_id` strictly less than its own internal ID. -/
theorem c1_parent_lt (tx : NCBITaxonomy) (f : Nat) (hpc : pcConsistent tx)
    {taxo : Taxonomy} (hconv : tx.convert_to_kraken_taxonomy f = some taxo) :
    ∀ w, 2 ≤ w → w < taxo.nodes.length → (taxo.nodes.getD w default).parent_id < w := by
  unfold NCBITaxonomy.convert_to_kraken_taxonomy at hconv
  cases hloop : convertLoop tx (getRankOffsetData tx).1 f initConvState with
  | none => rw [hloop] at hconv; simp at hconv
  | some out =>
    rw [hloop] at hconv
    simp only [Option.map_some'] at hconv
    have htx := Option.some.inj hconv
    subst htx
    intro w h2 hw
    refine convertLoop_mono tx _ hpc f initConvState out hloop ?_ w h2 hw
    refine ⟨rfl, ?_, Or.inl ⟨rfl, rfl⟩, ?_⟩
    · intro pr hpr
      rcases List.mem_cons.mp hpr with rfl | hpr
      · right; rfl
      · left
        rcases List.mem_singleton.mp hpr with rfl
        exact le_refl _
    · intro w' h2' hw'
      simp only [initConvState] at hw'
      omega

/-- The worked taxonomy of the specification (§8): root 1 with genus children
2 and 4, species 3 under 2, everything marked. -/
def exNCBI : NCBITaxonomy where
  parent_map := [(1, 0), (2, 1), (3, 2), (4, 1)]
  name_map := [(1, "root"), (2, "GenusA"), (3, "SpeciesA"), (4, "GenusB")]
  rank_map := [(1, "no rank"), (2, "genus"), (3, "species"), (4, "genus")]
  child_map := [(0, [1]), (1, [2, 4]), (2, [3])]
  marked_nodes := {1, 2, 3, 4}
  known_ranks := ["no rank", "genus", "species"]

/-- Witness for `c1_parent_lt` on the specification's worked example. -/
theorem c1_parent_lt_witness :
    pcCheck exNCBI = true ∧
    ∃ taxo, exNCBI.convert_to_kraken_taxonomy 10 = some taxo ∧
      (taxo.nodes.getD 4 default).parent_id < 4 := by
  refine ⟨by decide, ?_⟩
  exact ⟨_, rfl, c1_parent_lt exNCBI 10 (pcCheck_sound (by decide)) rfl 4 (by decide) (by decide)⟩

/-- `NCBITaxonomy::from_ncbi`: parse the two files and mark the root. -/
def NCBITaxonomy.from_ncbi (nodesLines namesLines : List String) : Option NCBITaxonomy :=
  (parseNodesFile nodesLines).map (fun acc =>
    { parent_map := acc.parent_map, name_map := parseNamesFile namesLines,
      rank_map := acc.rank_map, child_map := acc.child_map,
      marked_nodes := {1}, known_ranks := acc.known_ranks })

/-- `mark_node` on the working structure.  Fuel `parent_map.length + 1` covers
the Rust loop, which visits pairwise distinct external IDs drawn from the
start plus the parent map's values. -/
def NCBITaxonomy.mark_node (tx : NCBITaxonomy) (taxid : Nat) : NCBITaxonomy :=
  { tx with marked_nodes :=
      markNodeAux tx.parent_map (tx.parent_map.length + 1) taxid tx.marked_nodes }

/-- A nodes file in which node 3 appears on two lines with different parents
(1 and 2); `parse_nodes_file` accepts it, leaving 3 in both child sets with
`parent_map[3] = 2`. -/
def dupNodesLines : List String :=
  ["1\t|\t0\t|\tno rank", "2\t|\t1\t|\tgenus", "3\t|\t1\t|\tgenus", "3\t|\t2\t|\tgenus"]

def dupNamesLines : List String :=
  ["1\t|\troot\t|\t\t|\tscientific name", "2\t|\tA\t|\t\t|\tscientific name",
   "3\t|\tB\t|\t\t|\tscientific name"]

/-- C2, counterexample: loading `dupNodesLines`, marking node 3 and compacting
succeeds, and the result has node 1 with children range `[2, 4)` containing
internal ID 3 whose `parent_id` is 2, not 1 — the range is not exactly the set
of nodes whose parent is 1.  Duplicate node lines are accepted by the loader,
so the claim fails on a Taxonomy the program actually produces. -/
theorem c2_counterexample :
    ∃ tx taxo,
      NCBITaxonomy.from_ncbi dupNodesLines dupNamesLines = some tx ∧
      (tx.mark_node 3).convert_to_kraken_taxonomy 10 = some taxo ∧
      0 < (taxo.nodes.getD 1 default).child_count ∧
      (taxo.nodes.getD 1 default).first_child ≤ 3 ∧
      3 < (taxo.nodes.getD 1 default).first_child + (taxo.nodes.getD 1 default).child_count ∧
      ¬ (taxo.nodes.getD 3 default).parent_id = 1 :=
  ⟨_, _, rfl, rfl, by decide, by decide, by decide, by decide⟩

/-- Mutual consistency of the maps of an `NCBITaxonomy`, as produced by a
nodes file with one line per node: each child-set member's recorded parent is
exactly that set's key, each parent entry is mirrored in a child set, child
sets are duplicate-free, and node 1's recorded parent is the sentinel 0. -/
def treelike (tx : NCBITaxonomy) : Prop :=
  (∀ p c, c ∈ childList tx p → alookup tx.parent_map c = some p) ∧
  (∀ c p, alookup tx.parent_map c = some p → c ∈ childList tx p) ∧
  (∀ p, (childList tx p).Nodup) ∧
  (∀ q, alookup tx.parent_map 1 = some q → q = 0)

/-- Executable check of `treelike`. -/
def treeCheck (tx : NCBITaxonomy) : Bool :=
  tx.child_map.all (fun pr => (childList tx pr.1).all
    (fun c => alookup tx.parent_map c == some pr.1)) &&
  tx.parent_map.all (fun pr =>
    match alookup tx.parent_map pr.1 with
    | some q => (childList tx q).contains pr.1
    | none => true) &&
  tx.child_map.all (fun pr => decide (childList tx pr.1).Nodup) &&
  (match alookup tx.parent_map 1 with
   | some q => q == 0
   | none => true)

theorem treeCheck_sound {tx : NCBITaxonomy} (h : treeCheck tx = true) : treelike tx := by
  rw [treeCheck] at h
  simp only [Bool.and_eq_true, List.all_eq_true] at h
  obtain ⟨⟨⟨hfc, hcm⟩, hnd⟩, hp1⟩ := h
  refine ⟨?_, ?_, ?_, ?_⟩
  · intro p c hc
    have hlk : ∃ l, alookup tx.child_map p = some l := by
      unfold childList at hc
      cases hl : alookup tx.child_map p with
      | none => rw [hl] at hc; simp at hc
      | some l => exact ⟨l, rfl⟩
    obtain ⟨l, hl⟩ := hlk
    have := hfc (p, l) (alookup_mem hl)
    have h2 := this c hc
    simpa using h2
  · intro c p hp
    have := hcm (c, p) (alookup_mem hp)
    rw [hp] at this
    simpa [List.contains] using this
  · intro p
    cases hl : alookup tx.child_map p with
    | none => unfold childList; rw [hl]; simp
    | some l =>
      have := hnd (p, l) (alookup_mem hl)
      simpa using this
  · intro q hq
    rw [hq] at hp1
    simpa using hp1

/-- Iterated climbing through `parent_map`. -/
def pmIter (tx : NCBITaxonomy) : Nat → Nat → Option Nat
  | 0, c => some c
  | k + 1, c => (alookup tx.parent_map c).bind (pmIter tx k)

theorem pmIter_succ_right (tx : NCBITaxonomy) :
    ∀ (k : Nat) (c : Nat), pmIter tx (k + 1) c =
      (pmIter tx k c).bind (fun y => alookup tx.parent_map y) := by
  intro k
  induction k with
  | zero =>
    intro c
    cases hp : alookup tx.parent_map c <;> simp [pmIter, hp]
  | succ k ih =>
    intro c
    cases hp : alookup tx.parent_map c with
    | none => simp [pmIter, hp]
    | some p =>
      show (alookup tx.parent_map c).bind (pmIter tx (k + 1)) = _
      rw [hp]
      simp only [Option.some_bind]
      rw [ih p]
      show _ = ((alookup tx.parent_map c).bind (pmIter tx k)).bind _
      rw [hp]
      simp only [Option.some_bind]

/-- An external ID lying on a `parent_map` cycle all of whose members are
marked. -/
def onMarkedCycle (tx : NCBITaxonomy) (c : Nat) : Prop :=
  ∃ m, pmIter tx (m + 1) c = some c ∧
    ∀ k y, k ≤ m → pmIter tx k c = some y → y ∈ tx.marked_nodes

/-- A queued node on a fully-marked `parent_map` cycle (with the child map
mirroring the parent map) keeps one of its cycle members in the queue
forever: the BFS loop diverges. -/
theorem convertLoop_none_of_cycle (tx : NCBITaxonomy) (ro : List (String × Nat))
    (hcm : ∀ c p, alookup tx.parent_map c = some p → c ∈ childList tx p) :
    ∀ f st, (∃ c ∈ st.queue, onMarkedCycle tx c) → convertLoop tx ro f st = none := by
  intro f
  induction f with
  | zero => intro st _; rfl
  | succ f ih =>
    intro st h
    obtain ⟨c, hcq, hcyc⟩ := h
    unfold convertLoop
    cases hq : st.queue with
    | nil => rw [hq] at hcq; simp at hcq
    | cons hd rest =>
      rw [hq] at hcq
      show (convertStep tx ro st hd rest).bind (convertLoop tx ro f) = none
      cases hstep : convertStep tx ro st hd rest with
      | none => rfl
      | some st' =>
        simp only [Option.some_bind]
        apply ih
        obtain ⟨pext, pid, rk, roff, name, _, _, _, _, _, hst'⟩ := convertStep_some hstep
        have hqueue : st'.queue = rest ++ sortedMarked tx hd := by rw [hst']; rfl
        rcases List.mem_cons.mp hcq with rfl | hrest
        · -- the cycle member itself was dequeued: its cycle predecessor is
          -- a marked child and is re-enqueued
          obtain ⟨m, hcycle, hmarked⟩ := hcyc
          rw [pmIter_succ_right] at hcycle
          obtain ⟨d, hd_eq, hd_pm⟩ : ∃ d, pmIter tx m c = some d ∧
              alookup tx.parent_map d = some c := by
            cases he : pmIter tx m c with
            | none => rw [he] at hcycle; simp at hcycle
            | some d =>
              rw [he] at hcycle
              simp only [Option.some_bind] at hcycle
              exact ⟨d, rfl, hcycle⟩
          have hd_marked : d ∈ tx.marked_nodes := hmarked m d (le_refl _) hd_eq
          have hd_child : d ∈ childList tx c := hcm d c hd_pm
          refine ⟨d, ?_, ?_⟩
          · rw [hqueue]
            exact List.mem_append_right _ (mem_sortedMarked.mpr ⟨hd_child, hd_marked⟩)
          · refine ⟨m, ?_, ?_⟩
            · show (alookup tx.parent_map d).bind (pmIter tx m) = some d
              rw [hd_pm]
              simpa using hd_eq
            · intro k y hk hky
              cases k with
              | zero =>
                simp [pmIter] at hky
                subst hky
                exact hd_marked
              | succ k =>
                replace hky : pmIter tx k c = some y := by
                  rw [show pmIter tx (k + 1) d =
                    (alookup tx.parent_map d).bind (pmIter tx k) from rfl, hd_pm] at hky
                  simpa using hky
                exact hmarked k y (by omega) hky
        · exact ⟨c, by rw [hqueue]; exact List.mem_append_left _ hrest, hcyc⟩

/-- The external IDs of the real (non-sentinel) nodes built so far, in
internal-ID order. -/
def extsOf (st : ConvState) : List Nat :=
  (st.nodes.drop 1).map (fun nd => nd.external_id)

theorem extsOf_length (st : ConvState) : (extsOf st).length = st.nodes.length - 1 := by
  simp [extsOf]

theorem extsOf_stepState (tx : NCBITaxonomy) (st : ConvState) (e : Nat) (rest : List Nat)
    (pid roff : Nat) (name : String) (hne : st.nodes ≠ []) :
    extsOf (stepState tx st e rest pid roff name) = extsOf st ++ [e] := by
  unfold extsOf stepState
  simp only []
  rw [List.drop_append_of_le_length (Nat.succ_le_of_lt (List.length_pos.mpr hne))]
  simp

theorem extsOf_getD {st : ConvState} {j : Nat} (h : j + 1 < st.nodes.length) :
    (extsOf st).getD j 0 = (st.nodes.getD (j + 1) default).external_id := by
  unfold extsOf
  rw [List.getD_eq_getElem?_getD, List.getElem?_map, List.getElem?_drop,
    List.getD_eq_getElem?_getD, List.getElem?_eq_getElem h]
  rw [show 1 + j = j + 1 from Nat.add_comm 1 j, List.getElem?_eq_getElem h]
  simp

/-- The invariant carried through the BFS loop after the root has been
processed; it packages the numbering, contiguity and freshness facts that
claims C1/C2 need. -/
structure MidInv (tx : NCBITaxonomy) (st : ConvState) : Prop where
  hlen : st.nodes.length = st.next_id + 1
  hn1 : 1 ≤ st.next_id
  hnodup : (extsOf st ++ st.queue).Nodup
  hqmark : ∀ c ∈ st.queue, c ∈ tx.marked_nodes
  hpmark : ∀ c ∈ extsOf st, c = 1 ∨ c ∈ tx.marked_nodes
  hpparent : ∀ c ∈ extsOf st, c = 1 ∨ ∃ p, alookup tx.parent_map c = some p ∧ p ∈ extsOf st
  hqparent : ∀ c ∈ st.queue, ∃ p, alookup tx.parent_map c = some p ∧ p ∈ extsOf st
  hchain : ∀ c ∈ extsOf st ++ st.queue, ∃ m, pmIter tx m c = some 1 ∧
    ∀ k y, k ≤ m → pmIter tx k c = some y → y = c ∨ y ∈ extsOf st
  hidget : ∀ j, j < (extsOf st).length →
    alookup st.idMap ((extsOf st).getD j 0) = some (j + 1)
  hsent : st.nodes.getD 0 default = default
  hroot : (st.nodes.getD 1 default).parent_id = 0
  hfc1 : fcOf st.nodes 1 = 2
  htile : ∀ i, 1 ≤ i → i < st.next_id →
    fcOf st.nodes (i + 1) = fcOf st.nodes i + ccOf st.nodes i
  hend : fcOf st.nodes st.next_id + ccOf st.nodes st.next_id =
    st.next_id + st.queue.length + 1
  hqblock : ∀ j, j < st.queue.length → ∃ i, 1 ≤ i ∧ i ≤ st.next_id ∧
    alookup tx.parent_map (st.queue.getD j 0) = some ((extsOf st).getD (i - 1) 0) ∧
    fcOf st.nodes i ≤ st.next_id + j + 1 ∧
    st.next_id + j + 1 < fcOf st.nodes i + ccOf st.nodes i
  hnp : ∀ w, 2 ≤ w → w ≤ st.next_id → ∃ i, 1 ≤ i ∧ i < w ∧
    (st.nodes.getD w default).parent_id = i ∧
    fcOf st.nodes i ≤ w ∧ w < fcOf st.nodes i + ccOf st.nodes i

theorem sortedMarked_nodup {tx : NCBITaxonomy} (e : Nat)
    (hnd : (childList tx e).Nodup) : (sortedMarked tx e).Nodup := by
  unfold sortedMarked
  refine List.Nodup.filter _ ?_
  exact ((List.perm_insertionSort _ _).nodup_iff).mpr hnd

/-- After the root is processed from the initial state, the BFS invariant
holds (the root's parent lookup yields internal ID 0 under `treelike`). -/
theorem midInv_init (tx : NCBITaxonomy) (ht : treelike tx) (roff : Nat) (name : String) :
    MidInv tx (stepState tx initConvState 1 [] 0 roff name) := by
  have hexts : extsOf (stepState tx initConvState 1 [] 0 roff name) = [1] := rfl
  have hq : (stepState tx initConvState 1 [] 0 roff name).queue = sortedMarked tx 1 :=
    List.nil_append _
  have h1nC : (1 : Nat) ∉ sortedMarked tx 1 := by
    intro h1
    have hpm1 : alookup tx.parent_map 1 = some 1 := ht.1 1 1 (mem_sortedMarked.mp h1).1
    have := ht.2.2.2 1 hpm1
    omega
  refine ⟨rfl, le_refl _, ?_, ?_, ?_, ?_, ?_, ?_, ?_, rfl, rfl, rfl, ?_, ?_, ?_, ?_⟩
  · rw [hexts, hq, List.singleton_append, List.nodup_cons]
    exact ⟨h1nC, sortedMarked_nodup 1 (ht.2.2.1 1)⟩
  · intro c hc
    rw [hq] at hc
    exact (mem_sortedMarked.mp hc).2
  · intro c hc
    rw [hexts] at hc
    left; simpa using hc
  · intro c hc
    rw [hexts] at hc
    left; simpa using hc
  · intro c hc
    rw [hq] at hc
    exact ⟨1, ht.1 1 c (mem_sortedMarked.mp hc).1, by rw [hexts]; simp⟩
  · intro c hc
    rw [hexts, hq] at hc
    rcases List.mem_append.mp hc with h1 | hC
    · have hc1 : c = 1 := by simpa using h1
      subst hc1
      refine ⟨0, rfl, ?_⟩
      intro k y hk hky
      have hk0 : k = 0 := Nat.le_zero.mp hk
      subst hk0
      left
      simp [pmIter] at hky
      omega
    · have hpmc : alookup tx.parent_map c = some 1 := ht.1 1 c (mem_sortedMarked.mp hC).1
      refine ⟨1, ?_, ?_⟩
      · show (alookup tx.parent_map c).bind (pmIter tx 0) = some 1
        rw [hpmc]; rfl
      · intro k y hk hky
        match k, hk with
        | 0, _ =>
          left
          simp [pmIter] at hky
          omega
        | 1, _ =>
          right
          rw [show pmIter tx 1 c = (alookup tx.parent_map c).bind (pmIter tx 0) from rfl,
            hpmc] at hky
          simp [pmIter] at hky
          rw [hexts]
          simp
          omega
  · intro j hj
    rw [hexts] at hj
    have hj0 : j = 0 := by simpa using hj
    subst hj0
    rw [hexts]
    rfl
  · intro i hi1 hi
    have hi' : i < 1 := hi
    omega
  · have h1 : fcOf (stepState tx initConvState 1 [] 0 roff name).nodes
        (stepState tx initConvState 1 [] 0 roff name).next_id = 2 := rfl
    have h2 : ccOf (stepState tx initConvState 1 [] 0 roff name).nodes
        (stepState tx initConvState 1 [] 0 roff name).next_id = (sortedMarked tx 1).length := rfl
    have h4 : (stepState tx initConvState 1 [] 0 roff name).next_id = 1 := rfl
    rw [h1, h2, h4, hq]
    omega
  · intro j hj
    rw [hq] at hj
    refine ⟨1, le_refl _, le_refl _, ?_, ?_, ?_⟩
    · have hmem : (stepState tx initConvState 1 [] 0 roff name).queue.getD j 0 ∈
          sortedMarked tx 1 := by
        rw [hq, List.getD_eq_getElem _ _ hj]
        exact List.getElem_mem _
      show alookup tx.parent_map _ = some 1
      exact ht.1 1 _ (mem_sortedMarked.mp hmem).1
    · show 2 ≤ 1 + j + 1
      omega
    · show 1 + j + 1 < 2 + (sortedMarked tx 1).length
      omega
  · intro w h2 hw
    have hw' : w ≤ 1 := hw
    omega

theorem fcOf_append (nodes l : List TaxonomyNode) (v : Nat) (h : v < nodes.length) :
    fcOf (nodes ++ l) v = fcOf nodes v := by
  unfold fcOf
  rw [List.getD_append _ _ _ _ h]

theorem ccOf_append (nodes l : List TaxonomyNode) (v : Nat) (h : v < nodes.length) :
    ccOf (nodes ++ l) v = ccOf nodes v := by
  unfold ccOf
  rw [List.getD_append _ _ _ _ h]

theorem fcOf_append_self (nodes : List TaxonomyNode) (nd : TaxonomyNode) :
    fcOf (nodes ++ [nd]) nodes.length = nd.first_child := by
  unfold fcOf
  rw [getD_append_length]

theorem ccOf_append_self (nodes : List TaxonomyNode) (nd : TaxonomyNode) :
    ccOf (nodes ++ [nd]) nodes.length = nd.child_count := by
  unfold ccOf
  rw [getD_append_length]

/-- One successful BFS iteration preserves the invariant, provided the rest of
the run also terminates (a marked cycle through the dequeued node would make
the loop diverge, so it cannot occur on a terminating run). -/
theorem midInv_step (tx : NCBITaxonomy) (ro : List (String × Nat)) (ht : treelike tx)
    {st : ConvState} (hinv : MidInv tx st) {e : Nat} {rest : List Nat}
    (hq : st.queue = e :: rest) {st' : ConvState}
    (hstep : convertStep tx ro st e rest = some st')
    {f : Nat} {out : List TaxonomyNode × List Nat}
    (hrun : convertLoop tx ro f st' = some out) :
    MidInv tx st' := by
  obtain ⟨pext, pid, rk, roff, name, hpe, hpid, hrk, hroff, hname, hst'⟩ := convertStep_some hstep
  subst hst'
  have hne : st.nodes ≠ [] := by
    intro h
    have hl := hinv.hlen
    rw [h] at hl
    simp only [List.length_nil] at hl
    omega
  have hexts' : extsOf (stepState tx st e rest pid roff name) = extsOf st ++ [e] :=
    extsOf_stepState tx st e rest pid roff name hne
  have hex_len : (extsOf st).length = st.next_id := by
    rw [extsOf_length, hinv.hlen]
    omega
  have hemem : e ∈ st.queue := by rw [hq]; exact List.mem_cons_self _ _
  have henotin : e ∉ extsOf st := by
    intro hmem
    exact (List.nodup_append.mp hinv.hnodup).2.2 hmem hemem
  have hq0 : st.queue.getD 0 0 = e := by rw [hq]; rfl
  obtain ⟨i0, hi01, hi0n, hpm0, hfc0, hcc0⟩ := hinv.hqblock 0 (by rw [hq]; simp)
  rw [hq0, hpe] at hpm0
  have hpext_eq : pext = (extsOf st).getD (i0 - 1) 0 := Option.some.inj hpm0
  have hpext_mem : pext ∈ extsOf st := by
    rw [hpext_eq, List.getD_eq_getElem _ _ (by rw [hex_len]; omega)]
    exact List.getElem_mem _
  have hpe_ne : pext ≠ e := fun h => henotin (h ▸ hpext_mem)
  have hpid' : alookup st.idMap pext = some pid := by
    simp only [alookup] at hpid
    rw [if_neg hpe_ne] at hpid
    exact hpid
  have hpid_eq : pid = i0 := by
    have hg := hinv.hidget (i0 - 1) (by rw [hex_len]; omega)
    rw [← hpext_eq, hpid'] at hg
    have := Option.some.inj hg
    omega
  by_cases h1C : (1 : Nat) ∈ sortedMarked tx e
  · exfalso
    have h1c : 1 ∈ childList tx e := (mem_sortedMarked.mp h1C).1
    have h1m : (1 : Nat) ∈ tx.marked_nodes := (mem_sortedMarked.mp h1C).2
    have hpm1 : alookup tx.parent_map 1 = some e := ht.1 e 1 h1c
    obtain ⟨m, hm1, hmcond⟩ := hinv.hchain pext (List.mem_append_left _ hpext_mem)
    have hcyc : pmIter tx (m + 1 + 1) 1 = some 1 := by
      show (alookup tx.parent_map 1).bind (pmIter tx (m + 1)) = some 1
      rw [hpm1]
      simp only [Option.some_bind]
      show (alookup tx.parent_map e).bind (pmIter tx m) = some 1
      rw [hpe]
      simpa using hm1
    have hmark : ∀ k y, k ≤ m + 1 → pmIter tx k 1 = some y → y ∈ tx.marked_nodes := by
      intro k y hk hky
      cases k with
      | zero =>
        simp [pmIter] at hky
        have hy : y = 1 := by omega
        subst hy
        exact h1m
      | succ k' =>
        replace hky : pmIter tx k' e = some y := by
          rw [show pmIter tx (k' + 1) 1 = (alookup tx.parent_map 1).bind (pmIter tx k') from rfl,
            hpm1] at hky
          simpa using hky
        cases k' with
        | zero =>
          simp [pmIter] at hky
          have hy : y = e := by omega
          rw [hy]
          exact hinv.hqmark e hemem
        | succ k'' =>
          replace hky : pmIter tx k'' pext = some y := by
            rw [show pmIter tx (k'' + 1) e =
              (alookup tx.parent_map e).bind (pmIter tx k'') from rfl, hpe] at hky
            simpa using hky
          have hy := hmcond k'' y (by omega) hky
          have hymem : y ∈ extsOf st := by
            rcases hy with rfl | hmem2
            · exact hpext_mem
            · exact hmem2
          rcases hinv.hpmark y hymem with rfl | hm2
          · exact h1m
          · exact hm2
    have hq1mem : (1 : Nat) ∈ (stepState tx st e rest pid roff name).queue :=
      List.mem_append_right _ h1C
    have hdiv := convertLoop_none_of_cycle tx ro ht.2.1 f _ ⟨1, hq1mem, m + 1, hcyc, hmark⟩
    rw [hdiv] at hrun
    exact Option.noConfusion hrun
  · have hCfresh : ∀ c ∈ sortedMarked tx e, c ∉ extsOf st ∧ c ≠ e ∧ c ∉ rest := by
      intro c hc
      have hcc2 : c ∈ childList tx e := (mem_sortedMarked.mp hc).1
      have hpmc : alookup tx.parent_map c = some e := ht.1 e c hcc2
      refine ⟨?_, ?_, ?_⟩
      · intro hmem
        rcases hinv.hpparent c hmem with rfl | ⟨p, hp, hpmem⟩
        · exact h1C hc
        · rw [hpmc] at hp
          exact henotin (by rw [Option.some.inj hp]; exact hpmem)
      · intro hce
        subst hce
        rw [hpe] at hpmc
        exact hpe_ne (Option.some.inj hpmc)
      · intro hcr
        obtain ⟨p, hp, hpmem⟩ := hinv.hqparent c (by rw [hq]; exact List.mem_cons_of_mem _ hcr)
        rw [hpmc] at hp
        exact henotin (by rw [Option.some.inj hp]; exact hpmem)
    have hCnodup : (sortedMarked tx e).Nodup := sortedMarked_nodup e (ht.2.2.1 e)
    have hq' : (stepState tx st e rest pid roff name).queue = rest ++ sortedMarked tx e := rfl
    have hnid' : (stepState tx st e rest pid roff name).next_id = st.next_id + 1 := rfl
    have hid2 : (stepState tx st e rest pid roff name).idMap =
      (e, st.next_id + 1) :: st.idMap := rfl
    have hnodes' : (stepState tx st e rest pid roff name).nodes = st.nodes ++
        [{ parent_id := pid, first_child := st.next_id + 1 + rest.length + 1,
           child_count := (sortedMarked tx e).length, name_offset := st.name_data.length,
           rank_offset := roff, external_id := e, godparent_id := 0 }] := rfl
    have hfc_top : fcOf (stepState tx st e rest pid roff name).nodes (st.next_id + 1) =
        st.next_id + 1 + rest.length + 1 := by
      rw [hnodes', show st.next_id + 1 = st.nodes.length from hinv.hlen.symm, fcOf_append_self]
    have hcc_top : ccOf (stepState tx st e rest pid roff name).nodes (st.next_id + 1) =
        (sortedMarked tx e).length := by
      rw [hnodes', show st.next_id + 1 = st.nodes.length from hinv.hlen.symm, ccOf_append_self]
    have hEnd : fcOf st.nodes st.next_id + ccOf st.nodes st.next_id =
        st.next_id + rest.length + 2 := by
      have h := hinv.hend
      rw [hq] at h
      simp only [List.length_cons] at h
      omega
    refine ⟨?_, ?_, ?_, ?_, ?_, ?_, ?_, ?_, ?_, ?_, ?_, ?_, ?_, ?_, ?_, ?_⟩
    · rw [hnodes', hnid']
      simp [hinv.hlen]
    · rw [hnid']
      omega
    · rw [hexts', hq']
      have hL : ((extsOf st ++ [e]) ++ rest).Nodup := by
        rw [List.append_assoc, List.singleton_append]
        have h := hinv.hnodup
        rw [hq] at h
        exact h
      rw [show (extsOf st ++ [e]) ++ (rest ++ sortedMarked tx e) =
          ((extsOf st ++ [e]) ++ rest) ++ sortedMarked tx e from by
        simp [List.append_assoc]]
      rw [List.nodup_append]
      refine ⟨hL, hCnodup, ?_⟩
      intro a ha haC
      obtain ⟨hna, hne2, hnr⟩ := hCfresh a haC
      rcases List.mem_append.mp ha with h12 | hr
      · rcases List.mem_append.mp h12 with h1 | h2
        · exact hna h1
        · exact hne2 (by simpa using h2)
      · exact hnr hr
    · rw [hq']
      intro c hc
      rcases List.mem_append.mp hc with h | h
      · exact hinv.hqmark c (by rw [hq]; exact List.mem_cons_of_mem _ h)
      · exact (mem_sortedMarked.mp h).2
    · rw [hexts']
      intro c hc
      rcases List.mem_append.mp hc with h | h
      · exact hinv.hpmark c h
      · right
        have hce : c = e := by simpa using h
        subst hce
        exact hinv.hqmark c hemem
    · rw [hexts']
      intro c hc
      rcases List.mem_append.mp hc with h | h
      · rcases hinv.hpparent c h with h1 | ⟨p, hp, hpm2⟩
        · exact Or.inl h1
        · exact Or.inr ⟨p, hp, List.mem_append_left _ hpm2⟩
      · have hce : c = e := by simpa using h
        subst hce
        exact Or.inr ⟨pext, hpe, List.mem_append_left _ hpext_mem⟩
    · rw [hq', hexts']
      intro c hc
      rcases List.mem_append.mp hc with h | h
      · obtain ⟨p, hp, hpm2⟩ := hinv.hqparent c (by rw [hq]; exact List.mem_cons_of_mem _ h)
        exact ⟨p, hp, List.mem_append_left _ hpm2⟩
      · exact ⟨e, ht.1 e c (mem_sortedMarked.mp h).1, List.mem_append_right _ (by simp)⟩
    · rw [hexts', hq']
      intro c hc
      have hsplit : c ∈ extsOf st ++ st.queue ∨ c ∈ sortedMarked tx e := by
        rcases List.mem_append.mp hc with h12 | hrc
        · rcases List.mem_append.mp h12 with h1 | h2
          · exact Or.inl (List.mem_append_left _ h1)
          · refine Or.inl (List.mem_append_right _ ?_)
            rw [hq, show c = e from by simpa using h2]
            exact List.mem_cons_self _ _
        · rcases List.mem_append.mp hrc with hr | hC2
          · exact Or.inl (by rw [hq]; exact List.mem_append_right _ (List.mem_cons_of_mem _ hr))
          · exact Or.inr hC2
      rcases hsplit with hold | hC2
      · obtain ⟨m, hm1, hcond⟩ := hinv.hchain c hold
        exact ⟨m, hm1, fun k y hk hky => (hcond k y hk hky).imp id (List.mem_append_left _)⟩
      · have hpmc : alookup tx.parent_map c = some e := ht.1 e c (mem_sortedMarked.mp hC2).1
        obtain ⟨m, hm1, hcond⟩ := hinv.hchain e (List.mem_append_right _ hemem)
        refine ⟨m + 1, ?_, ?_⟩
        · show (alookup tx.parent_map c).bind (pmIter tx m) = some 1
          rw [hpmc]
          simpa using hm1
        · intro k y hk hky
          cases k with
          | zero =>
            left
            simp [pmIter] at hky
            omega
          | succ k' =>
            replace hky : pmIter tx k' e = some y := by
              rw [show pmIter tx (k' + 1) c =
                (alookup tx.parent_map c).bind (pmIter tx k') from rfl, hpmc] at hky
              simpa using hky
            right
            rcases hcond k' y (by omega) hky with rfl | hmem2
            · exact List.mem_append_right _ (by simp)
            · exact List.mem_append_left _ hmem2
    · intro j hj
      rw [hexts'] at hj
      simp only [List.length_append, List.length_singleton] at hj
      rw [hexts', hid2]
      rcases Nat.lt_or_ge j (extsOf st).length with hjl | hjge
      · rw [List.getD_append _ _ _ _ hjl]
        have hkey_mem : (extsOf st).getD j 0 ∈ extsOf st := by
          rw [List.getD_eq_getElem _ _ hjl]
          exact List.getElem_mem _
        have hkey_ne : (extsOf st).getD j 0 ≠ e := fun h => henotin (h ▸ hkey_mem)
        simp only [alookup]
        rw [if_neg hkey_ne]
        exact hinv.hidget j hjl
      · have hje : j = (extsOf st).length := by omega
        subst hje
        rw [getD_append_length]
        simp only [alookup]
        rw [hex_len]
        simp
    · rw [hnodes', List.getD_append _ _ _ _ (by rw [hinv.hlen]; omega)]
      exact hinv.hsent
    · rw [hnodes',
        List.getD_append _ _ _ _ (by rw [hinv.hlen]; have := hinv.hn1; omega)]
      exact hinv.hroot
    · rw [hnodes']
      unfold fcOf
      rw [List.getD_append _ _ _ _ (by rw [hinv.hlen]; have := hinv.hn1; omega)]
      exact hinv.hfc1
    · intro i hi1 hi
      rw [hnid'] at hi
      rcases Nat.lt_or_ge i st.next_id with hlt | hge
      · rw [hnodes']
        rw [fcOf_append _ _ _ (by rw [hinv.hlen]; omega),
          fcOf_append _ _ _ (by rw [hinv.hlen]; omega),
          ccOf_append _ _ _ (by rw [hinv.hlen]; omega)]
        exact hinv.htile i hi1 hlt
      · have hieq : i = st.next_id := by omega
        subst hieq
        rw [hfc_top, hnodes', fcOf_append _ _ _ (by rw [hinv.hlen]; omega),
          ccOf_append _ _ _ (by rw [hinv.hlen]; omega)]
        omega
    · rw [hnid', hq', hfc_top, hcc_top]
      simp only [List.length_append]
      omega
    · intro j hj
      rw [hq'] at hj
      simp only [List.length_append] at hj
      rw [hq', hnid', hexts']
      rcases Nat.lt_or_ge j rest.length with hjl | hjge
      · obtain ⟨i, hi1, hin, hpm, hfc, hcc⟩ := hinv.hqblock (j + 1)
          (by rw [hq]; simp only [List.length_cons]; omega)
        rw [hq, List.getD_cons_succ] at hpm
        refine ⟨i, hi1, by omega, ?_, ?_, ?_⟩
        · rw [List.getD_append _ _ _ _ hjl,
            List.getD_append _ _ _ _ (by rw [hex_len]; omega)]
          exact hpm
        · rw [hnodes', fcOf_append _ _ _ (by rw [hinv.hlen]; omega)]
          omega
        · rw [hnodes', fcOf_append _ _ _ (by rw [hinv.hlen]; omega),
            ccOf_append _ _ _ (by rw [hinv.hlen]; omega)]
          omega
      · have hj' : j - rest.length < (sortedMarked tx e).length := by omega
        refine ⟨st.next_id + 1, by omega, le_refl _, ?_, ?_, ?_⟩
        · have hmem : (rest ++ sortedMarked tx e).getD j 0 ∈ sortedMarked tx e := by
            rw [List.getD_append_right]
            · rw [List.getD_eq_getElem _ _ hj']
              exact List.getElem_mem _
            · exact hjge
          have hgete : (extsOf st ++ [e]).getD (st.next_id + 1 - 1) 0 = e := by
            rw [show st.next_id + 1 - 1 = (extsOf st).length from by omega,
              getD_append_length]
          rw [hgete]
          exact ht.1 e _ (mem_sortedMarked.mp hmem).1
        · rw [hfc_top]
          omega
        · rw [hfc_top, hcc_top]
          omega
    · intro w h2 hw
      rw [hnid'] at hw
      rcases Nat.lt_or_ge w (st.next_id + 1) with hlt | hge
      · obtain ⟨i, hi1, hiw, hpar, hfc, hcc⟩ := hinv.hnp w h2 (by omega)
        refine ⟨i, hi1, hiw, ?_, ?_, ?_⟩
        · rw [hnodes', List.getD_append _ _ _ _ (by rw [hinv.hlen]; omega)]
          exact hpar
        · rw [hnodes', fcOf_append _ _ _ (by rw [hinv.hlen]; omega)]
          exact hfc
        · rw [hnodes', fcOf_append _ _ _ (by rw [hinv.hlen]; omega),
            ccOf_append _ _ _ (by rw [hinv.hlen]; omega)]
          exact hcc
      · have hweq : w = st.next_id + 1 := by omega
        subst hweq
        refine ⟨i0, hi01, by omega, ?_, ?_, ?_⟩
        · rw [hnodes', show st.next_id + 1 = st.nodes.length from hinv.hlen.symm,
            getD_append_length]
          exact hpid_eq
        · rw [hnodes', fcOf_append _ _ _ (by rw [hinv.hlen]; omega)]
          omega
        · rw [hnodes', fcOf_append _ _ _ (by rw [hinv.hlen]; omega),
            ccOf_append _ _ _ (by rw [hinv.hlen]; omega)]
          omega

/-- From any invariant state, a terminating run ends in an invariant state
with an empty queue whose nodes are the output. -/
theorem convertLoop_mid (tx : NCBITaxonomy) (ro : List (String × Nat)) (ht : treelike tx) :
    ∀ f st out, MidInv tx st → convertLoop tx ro f st = some out →
      ∃ st', MidInv tx st' ∧ st'.queue = [] ∧ st'.nodes = out.1 := by
  intro f
  induction f with
  | zero => intro st out _ h; exact absurd h (by simp [convertLoop])
  | succ f ih =>
    intro st out hinv hrun
    unfold convertLoop at hrun
    cases hq : st.queue with
    | nil =>
      rw [hq] at hrun
      exact ⟨st, hinv, hq, by rw [← Option.some.inj hrun]⟩
    | cons e rest =>
      rw [hq] at hrun
      replace hrun : (convertStep tx ro st e rest).bind (convertLoop tx ro f) = some out := hrun
      cases hstep : convertStep tx ro st e rest with
      | none => rw [hstep] at hrun; exact absurd hrun (by simp)
      | some st1 =>
        rw [hstep] at hrun
        simp only [Option.some_bind] at hrun
        exact ih st1 out (midInv_step tx ro ht hinv hq hstep hrun) hrun

/-- A terminating run of the whole BFS from the initial state ends in an
invariant state with an empty queue. -/
theorem convertLoop_contig (tx : NCBITaxonomy) (ro : List (String × Nat)) (ht : treelike tx) :
    ∀ f out, convertLoop tx ro f initConvState = some out →
      ∃ st', MidInv tx st' ∧ st'.queue = [] ∧ st'.nodes = out.1 := by
  intro f out hrun
  cases f with
  | zero => exact absurd hrun (by simp [convertLoop])
  | succ f =>
    unfold convertLoop at hrun
    replace hrun : (convertStep tx ro initConvState 1 []).bind (convertLoop tx ro f) =
      some out := hrun
    cases hstep : convertStep tx ro initConvState 1 [] with
    | none => rw [hstep] at hrun; exact absurd hrun (by simp)
    | some st1 =>
      rw [hstep] at hrun
      simp only [Option.some_bind] at hrun
      obtain ⟨pext, pid, rk, roff, name, hpe, hpid, hrk, hroff, hname, hst1⟩ :=
        convertStep_some hstep
      have hpext0 : pext = 0 := ht.2.2.2 pext hpe
      subst hpext0
      have hpid0 : pid = 0 := by
        simp [alookup, initConvState] at hpid
        omega
      subst hpid0
      rw [hst1] at hrun
      exact convertLoop_mid tx ro ht f _ out (midInv_init tx ht roff name) hrun

/-- With the queue drained, the invariant yields the contiguity property:
each positive children range holds exactly the nodes whose parent is its
owner. -/
theorem midInv_final {tx : NCBITaxonomy} {st : ConvState} (hinv : MidInv tx st)
    (hq : st.queue = []) :
    ∀ v, v < st.nodes.length → 0 < ccOf st.nodes v →
      ∀ w, (fcOf st.nodes v ≤ w ∧ w < fcOf st.nodes v + ccOf st.nodes v) ↔
        (w < st.nodes.length ∧ parentOf st.nodes w = v) := by
  have hend' : fcOf st.nodes st.next_id + ccOf st.nodes st.next_id = st.next_id + 1 := by
    have h := hinv.hend
    rw [hq] at h
    simp only [List.length_nil] at h
    omega
  have H2 : ∀ d i, 1 ≤ i → i + 1 + d ≤ st.next_id →
      fcOf st.nodes i + ccOf st.nodes i ≤ fcOf st.nodes (i + 1 + d) := by
    intro d
    induction d with
    | zero =>
      intro i h1 hle
      rw [show i + 1 + 0 = i + 1 from rfl]
      exact le_of_eq (hinv.htile i h1 (by omega)).symm
    | succ d ih =>
      intro i h1 hle
      have h2 := ih i h1 (by omega)
      have h3 : fcOf st.nodes (i + 1 + d + 1) =
          fcOf st.nodes (i + 1 + d) + ccOf st.nodes (i + 1 + d) :=
        hinv.htile (i + 1 + d) (by omega) (by omega)
      rw [show i + 1 + (d + 1) = i + 1 + d + 1 from rfl]
      omega
  have hsubset : ∀ i, 1 ≤ i → i ≤ st.next_id →
      2 ≤ fcOf st.nodes i ∧ fcOf st.nodes i + ccOf st.nodes i ≤ st.next_id + 1 := by
    intro i h1 hn
    constructor
    · rcases Nat.lt_or_ge i 2 with h | h
      · have hi1 : i = 1 := by omega
        rw [hi1, hinv.hfc1]
      · have h2 := H2 (i - 2) 1 (le_refl _) (by omega)
        rw [show 1 + 1 + (i - 2) = i from by omega] at h2
        have := hinv.hfc1
        omega
    · rcases Nat.lt_or_ge i st.next_id with h | h
      · have h2 := H2 (st.next_id - i - 1) i h1 (by omega)
        rw [show i + 1 + (st.next_id - i - 1) = st.next_id from by omega] at h2
        omega
      · have hi : i = st.next_id := by omega
        rw [hi]
        omega
  have hdisj : ∀ i i', 1 ≤ i → i < i' → i' ≤ st.next_id →
      fcOf st.nodes i + ccOf st.nodes i ≤ fcOf st.nodes i' := by
    intro i i' h1 hii hn
    have h2 := H2 (i' - i - 1) i h1 (by omega)
    rw [show i + 1 + (i' - i - 1) = i' from by omega] at h2
    exact h2
  intro v hv hcc w
  have hv1 : 1 ≤ v := by
    by_contra h
    have hv0 : v = 0 := by omega
    rw [hv0] at hcc
    unfold ccOf at hcc
    rw [hinv.hsent] at hcc
    exact absurd hcc (by decide)
  have hvn : v ≤ st.next_id := by have := hinv.hlen; omega
  constructor
  · rintro ⟨hw1, hw2⟩
    have hsub := hsubset v hv1 hvn
    have hwb1 : 2 ≤ w := by omega
    have hwb2 : w ≤ st.next_id := by omega
    obtain ⟨i, hi1, hiw, hpar, hfci, hcci⟩ := hinv.hnp w hwb1 hwb2
    have hiv : i = v := by
      by_contra hne2
      rcases Nat.lt_or_ge i v with h | h
      · have := hdisj i v hi1 h hvn
        omega
      · have := hdisj v i hv1 (by omega) (by omega)
        omega
    refine ⟨by have := hinv.hlen; omega, ?_⟩
    unfold parentOf
    rw [← hiv]
    exact hpar
  · rintro ⟨hwlen, hpar⟩
    have hw2 : 2 ≤ w := by
      by_contra h
      rcases (by omega : w = 0 ∨ w = 1) with h0 | h1
      · rw [h0] at hpar
        unfold parentOf at hpar
        rw [hinv.hsent] at hpar
        have hd : (default : TaxonomyNode).parent_id = 0 := rfl
        rw [hd] at hpar
        omega
      · rw [h1] at hpar
        unfold parentOf at hpar
        rw [hinv.hroot] at hpar
        omega
    obtain ⟨i, hi1, hiw, hpar2, hfci, hcci⟩ := hinv.hnp w hw2 (by have := hinv.hlen; omega)
    have hiv : i = v := by
      unfold parentOf at hpar
      rw [hpar2] at hpar
      exact hpar
    rw [← hiv]
    exact ⟨hfci, hcci⟩

/-- C2 (amended): for every Taxonomy produced by `convert_to_kraken_taxonomy`
on an `NCBITaxonomy` whose maps are mutually consistent with duplicate-free
child sets (`treelike`, which a nodes file with one line per node yields),
every node `v` with positive `child_count` has `first_child ..
first_child + child_count` exactly the internal IDs whose `parent_id` is `v`,
and the ranges of two distinct nodes never share an ID.  Without the
one-line-per-node hypothesis the property fails (`c2_counterexample`). -/
theorem c2_contiguity_amended (tx : NCBITaxonomy) (f : Nat) (ht : treelike tx)
    {taxo : Taxonomy} (hconv : tx.convert_to_kraken_taxonomy f = some taxo) :
    (∀ v, v < taxo.nodes.length → 0 < ccOf taxo.nodes v →
      ∀ w, (fcOf taxo.nodes v ≤ w ∧ w < fcOf taxo.nodes v + ccOf taxo.nodes v) ↔
        (w < taxo.nodes.length ∧ parentOf taxo.nodes w = v)) ∧
    (∀ v v' w, v < taxo.nodes.length → v' < taxo.nodes.length →
      fcOf taxo.nodes v ≤ w → w < fcOf taxo.nodes v + ccOf taxo.nodes v →
      fcOf taxo.nodes v' ≤ w → w < fcOf taxo.nodes v' + ccOf taxo.nodes v' → v = v') := by
  unfold NCBITaxonomy.convert_to_kraken_taxonomy at hconv
  cases hloop : convertLoop tx (getRankOffsetData tx).1 f initConvState with
  | none => rw [hloop] at hconv; simp at hconv
  | some out =>
    rw [hloop] at hconv
    simp only [Option.map_some'] at hconv
    have htx := Option.some.inj hconv
    subst htx
    obtain ⟨st', hinv, hqe, hnodes⟩ := convertLoop_contig tx _ ht f out hloop
    have hmain := midInv_final hinv hqe
    rw [hnodes] at hmain
    constructor
    · exact hmain
    · intro v v' w hv hv' h1 h2 h3 h4
      have h1' : fcOf out.1 v ≤ w := h1
      have h2' : w < fcOf out.1 v + ccOf out.1 v := h2
      have h3' : fcOf out.1 v' ≤ w := h3
      have h4' : w < fcOf out.1 v' + ccOf out.1 v' := h4
      have hv2 : v < out.1.length := hv
      have hv2' : v' < out.1.length := hv'
      obtain ⟨e1a, e1b⟩ := (hmain v hv2 (by omega) w).mp ⟨h1', h2'⟩
      obtain ⟨e2a, e2b⟩ := (hmain v' hv2' (by omega) w).mp ⟨h3', h4'⟩
      omega

/-- Witness for `c2_contiguity_amended` on the specification's worked
example: node 1's range `[2, 4)` holds internal ID 2 iff 2's parent is 1. -/
theorem c2_contiguity_amended_witness :
    treeCheck exNCBI = true ∧
    ∃ taxo, exNCBI.convert_to_kraken_taxonomy 10 = some taxo ∧
      ((fcOf taxo.nodes 1 ≤ 2 ∧ 2 < fcOf taxo.nodes 1 + ccOf taxo.nodes 1) ↔
        (2 < taxo.nodes.length ∧ parentOf taxo.nodes 2 = 1)) :=
  ⟨by decide, _, rfl,
    (c2_contiguity_amended exNCBI 10 (treeCheck_sound (by decide)) rfl).1 1
      (by decide) (by decide) 2⟩

/-- Executable check of `monoInv`. -/
def monoCheck (nodes : List TaxonomyNode) : Bool :=
  (List.range nodes.length).all (fun w => decide (w < 2) || decide (parentOf nodes w < w))

theorem monoCheck_sound {nodes : List TaxonomyNode} (h : monoCheck nodes = true) :
    monoInv nodes := by
  intro w h2 hw
  rw [monoCheck, List.all_eq_true] at h
  have h3 := h w (List.mem_range.mpr hw)
  simp only [Bool.or_eq_true, decide_eq_true_eq] at h3
  rcases h3 with h' | h'
  · omega
  · exact h'

/-- Executable check of `contigInv`. -/
def contigCheck (nodes : List TaxonomyNode) : Bool :=
  (List.range nodes.length).all (fun v =>
    (List.range (ccOf nodes v)).all (fun k =>
      decide (fcOf nodes v + k < nodes.length) &&
      decide (parentOf nodes (fcOf nodes v + k) = v) &&
      decide (v < fcOf nodes v + k)))

theorem contigCheck_sound {nodes : List TaxonomyNode} (h : contigCheck nodes = true) :
    contigInv nodes := by
  intro v hv w h1 h2
  rw [contigCheck, List.all_eq_true] at h
  have hv2 := h v (List.mem_range.mpr hv)
  rw [List.all_eq_true] at hv2
  have hk := hv2 (w - fcOf nodes v) (List.mem_range.mpr (by omega))
  simp only [Bool.and_eq_true, decide_eq_true_eq] at hk
  obtain ⟨⟨ha, hb⟩, hc⟩ := hk
  have hw_eq : fcOf nodes v + (w - fcOf nodes v) = w := by omega
  rw [hw_eq] at ha hb hc
  exact ⟨ha, hb, hc⟩

/-- The compacted taxonomy that `convert_to_kraken_taxonomy` produces on the
specification's worked example (`exNCBI`), with its path cache and
external-to-internal map filled in: internal IDs 1..4 carry external IDs
1, 2, 4, 3. -/
def exTaxo : Taxonomy where
  path_cache := [(1, [1]), (2, [1, 2]), (3, [1, 3]), (4, [1, 2, 4])]
  nodes := [default,
    { parent_id := 0, first_child := 2, child_count := 2, name_offset := 0,
      rank_offset := 0, external_id := 1, godparent_id := 0 },
    { parent_id := 1, first_child := 4, child_count := 1, name_offset := 0,
      rank_offset := 0, external_id := 2, godparent_id := 0 },
    { parent_id := 1, first_child := 5, child_count := 0, name_offset := 0,
      rank_offset := 0, external_id := 4, godparent_id := 0 },
    { parent_id := 2, first_child := 5, child_count := 0, name_offset := 0,
      rank_offset := 0, external_id := 3, godparent_id := 0 }]
  name_data := []
  rank_data := []
  external_to_internal_id_map := [(1, 1), (2, 2), (4, 3), (3, 4)]

theorem exTaxo_cache_good : ∀ v l, alookup exTaxo.path_cache v = some l →
    goodPath exTaxo.nodes v l := by
  intro v l h
  have hm := alookup_mem h
  simp only [exTaxo, List.mem_cons, List.not_mem_nil, or_false, Prod.mk.injEq] at hm
  rcases hm with ⟨rfl, rfl⟩ | ⟨rfl, rfl⟩ | ⟨rfl, rfl⟩ | ⟨rfl, rfl⟩ <;> decide

/-- Witness for `c3_lca_agreement`: on `exTaxo`, both LCA implementations give
1 for internal IDs 4 and 3. -/
theorem c3_lca_agreement_witness : exTaxo.lca 4 3 = 1 :=
  @c3_lca_agreement exTaxo (monoCheck_sound (by decide)) (by intro h1; decide)
    exTaxo_cache_good 4 3 [1, 2, 4] [1, 3] rfl rfl 10 1 rfl

/-- Witness for `c6_ancestor_consistency` on `exTaxo` with a = 2, b = 4. -/
theorem c6_ancestor_consistency_witness :
    (exTaxo.is_a_ancestor_of_b 2 4 = true ↔ 2 ∈ [1, 2, 4]) ∧
    (2 ∈ [1, 2, 4] ↔ exTaxo.lca 2 4 = 2) :=
  @c6_ancestor_consistency exTaxo (monoCheck_sound (by decide)) (by intro h1; decide)
    exTaxo_cache_good 2 4 [1, 2] [1, 2, 4] rfl rfl

/-- Witness for `c7_amended`: the climb terminates on `exTaxo` for inputs
4 and 3 within fuel 8. -/
theorem c7_amended_witness : ∃ r, exTaxo.lowest_common_ancestor (4 + 3 + 1) 4 3 = some r :=
  c7_amended exTaxo (monoCheck_sound (by decide)) (by intro h1; decide) 4 3

/-- Witness for `c5_build_path_cache`: the cache built on `exTaxo` maps
internal ID 4 to the root path `[1, 2, 4]`, which is a good path. -/
theorem c5_build_path_cache_witness :
    contigCheck exTaxo.nodes = true ∧
    ∃ C, exTaxo.build_path_cache = some C ∧ alookup C 4 = some [1, 2, 4] ∧
      goodPath exTaxo.nodes 4 [1, 2, 4] :=
  ⟨by decide, _, rfl, rfl,
    (c5_build_path_cache exTaxo (contigCheck_sound (by decide)) rfl rfl).1 4 [1, 2, 4] rfl⟩

/-- Witness for `c4_round_trip` on `exTaxo`. -/
theorem c4_round_trip_witness :
    Compacted exTaxo ∧
    ∃ tx', taxonomyFromFileBytes exTaxo.write_to_disk = some tx' ∧
      tx'.nodes = exTaxo.nodes ∧ tx'.name_data = exTaxo.name_data ∧
      tx'.rank_data = exTaxo.rank_data ∧
      ∃ cache, exTaxo.build_path_cache = some cache ∧ tx'.path_cache = cache := by
  have hcomp : Compacted exTaxo :=
    ⟨by decide, by decide, by decide, by decide, by decide,
      contigCheck_sound (by decide), by decide, by decide, by decide, by decide⟩
  exact ⟨hcomp, c4_round_trip exTaxo hcomp⟩

/-- C8 at the `mark_node` level: a second call is a no-op on `marked_nodes`,
and one call adds exactly the climb chain from the start up to (excluding)
the first already-marked node (stopping there or at a node with no
`parent_map` entry). -/
theorem c8_mark_node_idem (tx : NCBITaxonomy) (t : Nat) :
    ((tx.mark_node t).mark_node t).marked_nodes = (tx.mark_node t).marked_nodes ∧
    (tx.mark_node t).marked_nodes = tx.marked_nodes ∪
      (markChain tx.parent_map (tx.parent_map.length + 1) t tx.marked_nodes).toFinset :=
  ⟨markNodeAux_of_mem (mem_markNodeAux_self tx.parent_map tx.parent_map.length t
      tx.marked_nodes),
   markNodeAux_eq_union tx.parent_map (tx.parent_map.length + 1) t tx.marked_nodes⟩

/-- Parent/child mutual consistency of the two accumulating maps of
`parse_nodes_file`: every child-set member has a parent entry and lies in the
child set of that recorded parent. -/
def pcAcc (pm : List (Nat × Nat)) (cm : List (Nat × List Nat)) : Prop :=
  ∀ p c, c ∈ (alookup cm p).getD [] →
    ∃ q, alookup pm c = some q ∧ c ∈ (alookup cm q).getD []

theorem pcAcc_insert {pm : List (Nat × Nat)} {cm : List (Nat × List Nat)}
    (h : pcAcc pm cm) (nid pid : Nat) :
    pcAcc (aInsert pm nid pid) (childInsert cm pid nid) := by
  have hmemL : ∀ x, x ∈ (alookup (childInsert cm pid nid) pid).getD [] ↔
      (x ∈ (alookup cm pid).getD [] ∨ x = nid) := by
    intro x
    unfold childInsert
    cases hcm : alookup cm pid with
    | none => simp [alookup]
    | some l =>
      by_cases hn : nid ∈ l
      · simp only [if_pos hn, alookup, if_pos rfl, Option.getD_some]
        exact ⟨fun hx => Or.inl hx, fun hx => hx.elim id (fun hx2 => hx2 ▸ hn)⟩
      · simp only [if_neg hn, alookup, if_pos rfl, Option.getD_some]
        simp
  have hmemO : ∀ p, p ≠ pid → alookup (childInsert cm pid nid) p = alookup cm p := by
    intro p hp
    unfold childInsert
    cases hcm : alookup cm pid with
    | none => simp [alookup, hp]
    | some l => simp [alookup, hp]
  intro p c hc
  by_cases hcn : c = nid
  · subst hcn
    refine ⟨pid, ?_, (hmemL c).mpr (Or.inr rfl)⟩
    simp [aInsert, alookup]
  · have hcold : ∃ p0, c ∈ (alookup cm p0).getD [] := by
      by_cases hp : p = pid
      · subst hp
        rcases (hmemL c).mp hc with h' | h'
        · exact ⟨p, h'⟩
        · exact absurd h' hcn
      · rw [hmemO p hp] at hc
        exact ⟨p, hc⟩
    obtain ⟨p0, hp0⟩ := hcold
    obtain ⟨q, hq, hcq⟩ := h p0 c hp0
    refine ⟨q, ?_, ?_⟩
    · simp only [aInsert, alookup, if_neg hcn]
      exact hq
    · by_cases hqp : q = pid
      · subst hqp
        exact (hmemL c).mpr (Or.inl hcq)
      · rw [hmemO q hqp]
        exact hcq

/-- One line of the nodes file preserves parent/child consistency. -/
theorem parseNodesLine_pc {acc acc' : NodesAcc} {line : String}
    (h : parseNodesLine acc line = some acc')
    (hpc : pcAcc acc.parent_map acc.child_map) :
    pcAcc acc'.parent_map acc'.child_map := by
  unfold parseNodesLine at h
  by_cases h1 : line.data = []
  · rw [if_pos h1] at h
    cases Option.some.inj h
    exact hpc
  rw [if_neg h1] at h
  by_cases h2 : line.data.head? = some '#'
  · rw [if_pos h2] at h
    cases Option.some.inj h
    exact hpc
  rw [if_neg h2] at h
  by_cases h3 : (lineFields line).length < 3
  · rw [if_pos h3] at h
    cases Option.some.inj h
    exact hpc
  rw [if_neg h3] at h
  cases hn : parseU64 ((lineFields line).getD 0 []) with
  | none => rw [hn] at h; simp at h
  | some nid =>
    rw [hn] at h
    simp only [Option.bind_eq_bind, Option.some_bind] at h
    by_cases hnid : nid = 1
    · rw [if_pos hnid] at h
      cases Option.some.inj h
      exact pcAcc_insert hpc nid 0
    · rw [if_neg hnid] at h
      cases hp1 : parseU64 ((lineFields line).getD 1 []) with
      | none => rw [hp1] at h; simp at h
      | some pid =>
        rw [hp1] at h
        simp only [Option.some_bind, Option.some.injEq] at h
        subst h
        exact pcAcc_insert hpc nid pid

/-- `parse_nodes_file` always yields mutually consistent maps. -/
theorem parseNodesFile_pc {lines : List String} {acc : NodesAcc}
    (h : parseNodesFile lines = some acc) : pcAcc acc.parent_map acc.child_map := by
  have main : ∀ (ls : List String) (a0 : NodesAcc), pcAcc a0.parent_map a0.child_map →
      ls.foldlM parseNodesLine a0 = some acc → pcAcc acc.parent_map acc.child_map := by
    intro ls
    induction ls with
    | nil =>
      intro a0 hpc hrun
      simp only [List.foldlM_nil] at hrun
      cases Option.some.inj hrun
      exact hpc
    | cons l t ih =>
      intro a0 hpc hrun
      replace hrun : (parseNodesLine a0 l).bind (t.foldlM parseNodesLine) = some acc := by
        simpa using hrun
      cases hstep : parseNodesLine a0 l with
      | none => rw [hstep] at hrun; simp at hrun
      | some a1 =>
        rw [hstep] at hrun
        simp only [Option.some_bind] at hrun
        exact ih a1 (parseNodesLine_pc hstep hpc) hrun
  refine main lines _ ?_ h
  intro p c hc
  simp [alookup] at hc

/-- Every `NCBITaxonomy` loaded by `from_ncbi` is parse-consistent, so the
hypothesis of `c1_parent_lt` holds for every taxonomy the program converts. -/
theorem from_ncbi_pcConsistent {nodesLines namesLines : List String} {tx : NCBITaxonomy}
    (h : NCBITaxonomy.from_ncbi nodesLines namesLines = some tx) : pcConsistent tx := by
  unfold NCBITaxonomy.from_ncbi at h
  cases hp : parseNodesFile nodesLines with
  | none => rw [hp] at h; simp at h
  | some acc =>
    rw [hp] at h
    simp only [Option.map_some'] at h
    cases Option.some.inj h
    exact parseNodesFile_pc hp

/-- `mark_node` touches only `marked_nodes`, so it preserves
parse-consistency. -/
theorem mark_node_pcConsistent {tx : NCBITaxonomy} (h : pcConsistent tx) (t : Nat) :
    pcConsistent (tx.mark_node t) := h
